import Mathlib

/-!
Verification of the path-classification, argument-serialization and script-rendering
logic of `scripts/variantstore/wdl/extract/generate_hail_gvs_import.py`.

The Python functions `generate_avro_dict`, `generate_avro_args` and the f-string
template machinery of `generate_vat_inputs_script` are shallowly embedded below.
Python lists become Lean lists, the insertion-ordered `defaultdict(list)` becomes an
association list in insertion order, exceptions become `Except` values, and Python
list indexing (including negative indices) is modelled by `pyIdx`.
-/

deriving instance DecidableEq for Except

namespace GvsImport

/-- Python `str.strip()` on a character list: remove leading and trailing
whitespace. -/
def trimChars (cs : List Char) : List Char :=
  ((cs.dropWhile Char.isWhitespace).reverse.dropWhile Char.isWhitespace).reverse

/-- Python `s.endswith(sfx)` on character lists. -/
def endsWithL (cs sfx : List Char) : Bool :=
  if sfx.length ≤ cs.length then cs.drop (cs.length - sfx.length) == sfx else false

/-- Python `s.split(sep)` for a one-character separator `sep`, on character lists. -/
def splitCh (sep : Char) (cs : List Char) : List (List Char) :=
  cs.foldr
    (fun c acc =>
      if c = sep then [] :: acc
      else (c :: acc.headD []) :: acc.tail) [[]]

example : splitCh '/' "vets/vet_001/a.avro".toList =
    ["vets".toList, "vet_001".toList, "a.avro".toList] := by decide
example : splitCh '/' [] = [[]] := by decide
example : splitCh '/' "/a/".toList = [[], ['a'], []] := by decide

/-- Value of a decimal digit character list, most significant first. -/
def digitsVal (cs : List Char) : Nat :=
  cs.foldl (fun a c => a * 10 + (c.toNat - 48)) 0

/-- Python `int(s)` on the strings this script feeds it: surrounding whitespace is
stripped, an optional sign is followed by one or more decimal digits.  (Python also
accepts underscores between digits, but every string passed to `int` here is the
last chunk of a `split('_')` and so never contains an underscore.) -/
def pyInt (s : List Char) : Option Int :=
  match trimChars s with
  | [] => none
  | '-' :: rest =>
      if rest ≠ [] ∧ rest.all Char.isDigit then some (-(digitsVal rest : Int)) else none
  | '+' :: rest =>
      if rest ≠ [] ∧ rest.all Char.isDigit then some ((digitsVal rest : Int)) else none
  | c :: rest =>
      if (c :: rest).all Char.isDigit then some ((digitsVal (c :: rest) : Int)) else none

example : pyInt "001".toList = some 1 := by decide
example : pyInt " 12".toList = some 12 := by decide
example : pyInt "-3".toList = some (-3) := by decide
example : pyInt "abc".toList = none := by decide
example : pyInt "".toList = none := by decide

/-- Python list indexing: `xs[i]` on a list of length `len` resolves to position `i`
for `0 ≤ i < len`, to position `len + i` for `-len ≤ i < 0`, and raises `IndexError`
otherwise (`none`). -/
def pyIdx (len : Nat) (i : Int) : Option Nat :=
  if 0 ≤ i ∧ i < (len : Int) then some i.toNat
  else if -(len : Int) ≤ i ∧ i < 0 then some ((len : Int) + i).toNat
  else none

/-- The Python exceptions the embedded code can raise. -/
inductive PyErr where
  | valueError
  | indexError
  | attributeError
deriving DecidableEq, Repr

/-- A value of the insertion-ordered dictionary built by `generate_avro_dict`:
a flat list of paths, or a list of per-superpartition lists of paths. -/
inductive AvroVal where
  | flat : List String → AvroVal
  | sup : List (List String) → AvroVal
deriving DecidableEq, Repr

/-- The classifier state: `avro_file_arguments` as an association list in key
insertion order (Python dicts preserve insertion order). -/
abbrev St := List (String × AvroVal)

/-- Dictionary lookup. -/
def valOf (st : St) (k : String) : Option AvroVal :=
  (st.find? (fun p => p.1 == k)).map (·.2)

/-- Dictionary update: replace the value of an existing key in place, or append a
new key at the end (insertion order). -/
def setVal (st : St) (k : String) (v : AvroVal) : St :=
  if st.any (fun p => p.1 == k) then
    st.map (fun p => if p.1 == k then (k, v) else p)
  else st ++ [(k, v)]

/-- `superpartitioned_keys = {'vets', 'refs'}` from the source. -/
def superpartitionedKeys : List String := ["vets", "refs"]

/-- The outer list currently stored for a superpartitioned key: the empty list when
the key is absent (`defaultdict(list)`), and `none` when the stored value is not a
list of lists (unreachable from the script itself; Python would raise
`AttributeError` when appending). -/
def supOuter0 (st : St) (k : String) : Option (List (List String)) :=
  match valOf st k with
  | none => some []
  | some (.sup o) => some o
  | some (.flat _) => none

/-- Lines 35-37 of the source, acting on the outer list of one superpartitioned key:

    if len(avro_file_arguments[key]) == index:
        avro_file_arguments[key].append([])
    avro_file_arguments[key][index].append(full_path)
-/
def supStep (outer : List (List String)) (index : Int) (full : String) :
    Except PyErr (List (List String)) :=
  let outer1 := if (outer.length : Int) = index then outer ++ [[]] else outer
  match pyIdx outer1.length index with
  | none => .error .indexError
  | some j => .ok (outer1.set j ((outer1.getD j []) ++ [full]))

/-- `full_path.strip()`: the trimmed line (line 25 of the source). -/
def lineFull (raw : String) : List Char := trimChars raw.toList

/-- Whether a line survives the `.avro` filter (line 26 of the source). -/
def isQual (raw : String) : Bool := endsWithL (lineFull raw) ".avro".toList

/-- `relative_path.split('/')` (lines 28-29 of the source): `spfx` is the
already-slash-normalized prefix, whose length is sliced off the front. -/
def lineParts (spfx raw : String) : List (List Char) :=
  splitCh '/' ((lineFull raw).drop spfx.length)

/-- `key = parts[0]` (line 30 of the source; `parts` is never empty). -/
def lineKey (spfx raw : String) : String := ⟨(lineParts spfx raw).headD []⟩

/-- `int(parts[1].split('_')[-1])` (line 34 of the source), when `parts[1]`
exists and the suffix parses. -/
def lineNum? (spfx raw : String) : Option Int :=
  match (lineParts spfx raw).get? 1 with
  | none => none
  | some p1 => pyInt ((splitCh '_' p1).getLastD [])

/-- The body of the `for full_path in gcs_listing.readlines()` loop of
`generate_avro_dict` (lines 24-39 of the source), for one line.  `spfx` is the
already-slash-normalized prefix. -/
def processLine (spfx : String) (st : St) (raw : String) : Except PyErr St :=
  if isQual raw = false then .ok st else
  let full : String := ⟨lineFull raw⟩
  let parts := lineParts spfx raw
  let key : String := lineKey spfx raw
  if key ∈ superpartitionedKeys then
    match parts.get? 1 with
    | none => .error .indexError
    | some p1 =>
      match pyInt ((splitCh '_' p1).getLastD []) with
      | none => .error .valueError
      | some n =>
        match supOuter0 st key with
        | none => .error .attributeError
        | some outer =>
          match supStep outer (n - 1) full with
          | .error e => .error e
          | .ok outer2 => .ok (setVal st key (.sup outer2))
  else
    match valOf st key with
    | some (.sup _) => .error .attributeError
    | some (.flat xs) => .ok (setVal st key (.flat (xs ++ [full])))
    | none => .ok (setVal st key (.flat [full]))

/-- Line 22 of the source:
`slashed_avro_prefix = avro_prefix + "/" if not avro_prefix[-1] == '/' else avro_prefix`.
On an empty argument `avro_prefix[-1]` raises `IndexError`. -/
def slashedPfx (p : String) : Except PyErr String :=
  if p = "" then .error .indexError
  else if endsWithL p.toList ['/'] then .ok p else .ok ⟨p.toList ++ ['/']⟩

/-- `generate_avro_dict(avro_prefix, gcs_listing)` (lines 7-41 of the source), with
the listing given as the list of its lines.  An uncaught Python exception becomes
`.error`; no partial dictionary is returned in that case. -/
def generate_avro_dict (p : String) (gcs_listing : List String) : Except PyErr St :=
  match slashedPfx p with
  | .error e => .error e
  | .ok spfx => gcs_listing.foldlM (processLine spfx) ([] : St)

example : generate_avro_dict "gs://bucket/avro"
    ["gs://bucket/avro/vets/vet_001/a.avro",
     "gs://bucket/avro/vets/vet_001/b.avro",
     "gs://bucket/avro/vets/vet_002/c.avro",
     "gs://bucket/avro/sample_mapping_data/d.avro"] =
    .ok [("vets", .sup [["gs://bucket/avro/vets/vet_001/a.avro",
                         "gs://bucket/avro/vets/vet_001/b.avro"],
                        ["gs://bucket/avro/vets/vet_002/c.avro"]]),
         ("sample_mapping_data", .flat ["gs://bucket/avro/sample_mapping_data/d.avro"])] := by
  decide

/-! ### The serializer `generate_avro_args` (lines 44-53 of the source)

The dictionary values it receives are Python lists whose elements are path strings
or lists of path strings; `json.dumps(v, indent=4)` is applied to each value.  The
element type below is the untyped view `json.dumps` sees. -/

/-- One element of a dictionary value: a path string, or a list of path strings
(one superpartition). -/
inductive JElem where
  | js : String → JElem
  | jl : List String → JElem
deriving DecidableEq, Repr

/-- A dictionary value as passed to `json.dumps`. -/
abbrev JVal := List JElem

/-- The argument dictionary in insertion order, as consumed by
`generate_avro_args`. -/
abbrev ArgDict := List (String × JVal)

/-- Lowercase hexadecimal digit, as used by `json.dumps` unicode escapes. -/
def hexChar (n : Nat) : Char :=
  if n < 10 then Char.ofNat (48 + n) else Char.ofNat (87 + n)

/-- Four lowercase hex digits of `n % 65536`, most significant first. -/
def hex4 (n : Nat) : List Char :=
  [hexChar (n / 4096 % 16), hexChar (n / 256 % 16), hexChar (n / 16 % 16), hexChar (n % 16)]

/-- The escape `json.dumps` (default `ensure_ascii=True`) applies to one character
of a string: `\"` `\\` `\n` `\t` `\r` `\b` `\f`, `\uXXXX` for other control and all
non-ASCII basic-plane characters, a surrogate pair for the astral planes, and the
character itself for printable ASCII. -/
def escChar (c : Char) : List Char :=
  if c = '"' then ['\\', '"']
  else if c = '\\' then ['\\', '\\']
  else if c = '\n' then ['\\', 'n']
  else if c = '\t' then ['\\', 't']
  else if c = '\r' then ['\\', 'r']
  else if c.toNat = 8 then ['\\', 'b']
  else if c.toNat = 12 then ['\\', 'f']
  else if c.toNat < 32 ∨ (127 ≤ c.toNat ∧ c.toNat < 65536) then '\\' :: 'u' :: hex4 c.toNat
  else if c.toNat < 127 then [c]
  else
    ('\\' :: 'u' :: hex4 (55296 + (c.toNat - 65536) / 1024)) ++
    ('\\' :: 'u' :: hex4 (56320 + (c.toNat - 65536) % 1024))

/-- A JSON string literal: quote, escaped characters, quote. -/
def jsonStrL (s : String) : List Char :=
  '"' :: (s.toList.map escChar).flatten ++ ['"']

/-- `n` spaces. -/
def pad (n : Nat) : List Char := List.replicate n ' '

/-- `json.dumps(e, indent=4)` of one element, rendered at nesting level 1 (the
level-1 line indentation itself is added by `dumpsL`). -/
def elemL (e : JElem) : List Char :=
  match e with
  | .js x => jsonStrL x
  | .jl [] => ['[', ']']
  | .jl xs =>
      '[' :: '\n' ::
        (List.intercalate [',', '\n'] (xs.map (fun x => pad 8 ++ jsonStrL x))) ++
        ('\n' :: pad 4) ++ [']']

/-- `json.dumps(v, indent=4)` of one dictionary value. -/
def dumpsL (v : JVal) : List Char :=
  match v with
  | [] => ['[', ']']
  | es =>
      '[' :: '\n' ::
        (List.intercalate [',', '\n'] (es.map (fun e => pad 4 ++ elemL e))) ++ ['\n', ']']

/-- `json.dumps(v, indent=4)` as a string. -/
def dumps (v : JVal) : String := ⟨dumpsL v⟩

/-- One `key=value` assignment (line 51 of the source: `s = f'{k}={json.dumps(v, indent=4)}'`). -/
def entryL (p : String × JVal) : List Char := p.1.toList ++ '=' :: dumpsL p.2

/-- `generate_avro_args(avro_dict)` (lines 44-53 of the source): the assignments in
insertion order, joined with a comma and a newline. -/
def generate_avro_args (d : ArgDict) : String :=
  ⟨List.intercalate [',', '\n'] (d.map entryL)⟩

example : dumps [.js "a", .js "b"] = "[\n    \"a\",\n    \"b\"\n]" := by decide
example : dumps [.jl ["a"], .jl ["b", "c"], .jl []] =
    "[\n    [\n        \"a\"\n    ],\n    [\n        \"b\",\n        \"c\"\n    ],\n    []\n]" := by
  decide
example : dumps [] = "[]" := by decide
example : generate_avro_args [("vets", [.jl ["a"]]), ("x", [.js "y"])] =
    "vets=[\n    [\n        \"a\"\n    ]\n],\nx=[\n    \"y\"\n]" := by decide

/-! ### The f-string template of `generate_vat_inputs_script` (lines 110-206)

A Python f-string body is scanned for brace-delimited replacement fields; the
scanner below models that scanning, restricted to the brace shapes these templates
contain (no nested braces inside a field). -/

/-- One piece of a parsed f-string body: a literal character, or a replacement
field holding its expression text. -/
inductive FPiece where
  | lit : Char → FPiece
  | field : List Char → FPiece
deriving DecidableEq, Repr

/-- Python f-string brace scanning.  The first argument is `some acc` while inside
a replacement field (accumulated expression text, reversed).  Doubled braces are
literal braces; a field with an empty expression is the Python SyntaxError
`f-string: empty expression not allowed` (`none`); a lone closing brace and an
unterminated field are also SyntaxErrors. -/
def fscanA : Option (List Char) → List Char → Option (List FPiece)
  | none, [] => some []
  | some _, [] => none
  | none, '{' :: '{' :: r => (fscanA none r).map (.lit '{' :: ·)
  | none, '}' :: '}' :: r => (fscanA none r).map (.lit '}' :: ·)
  | none, '{' :: r => fscanA (some []) r
  | none, '}' :: _ => none
  | none, c :: r => (fscanA none r).map (.lit c :: ·)
  | some acc, '}' :: r =>
      if acc = [] then none else (fscanA none r).map (.field acc.reverse :: ·)
  | some acc, c :: r => fscanA (some (c :: acc)) r

/-- Scan a complete f-string body. -/
def fscan (s : String) : Option (List FPiece) := fscanA none s.toList

example : fscan "a\x7bx\x7db" =
    some [.lit 'a', .field ['x'], .lit 'b'] := by decide
example : fscan "a\x7b\x7bb\x7d\x7dc" =
    some [.lit 'a', .lit '{', .lit 'b', .lit '}', .lit 'c'] := by decide
example : fscan "a\x7b\x7db" = none := by decide

/-! ### Dictionary and indexing lemmas -/

theorem valOf_setVal (st : St) (k kq : String) (v : AvroVal) :
    valOf (setVal st k v) kq = if kq = k then some v else valOf st kq := by
  by_cases hany : st.any (fun p => p.1 == k) = true
  · unfold setVal valOf
    rw [if_pos hany, List.find?_map]
    by_cases hk : kq = k
    · subst hk
      have hfn : ((fun q : String × AvroVal => q.1 == kq) ∘
          fun p => if p.1 == kq then (kq, v) else p) =
          fun p : String × AvroVal => p.1 == kq := by
        funext p
        by_cases h : p.1 = kq <;> simp [h]
      rw [hfn, if_pos rfl]
      rcases List.any_eq_true.mp hany with ⟨x, hx, hpx⟩
      cases hfind : st.find? (fun p : String × AvroVal => p.1 == kq) with
      | none => exact absurd hpx (List.find?_eq_none.mp hfind x hx)
      | some q =>
          have hq := List.find?_some hfind
          have hq2 : q.1 = kq := by simpa using hq
          simp [hq2]
    · have hfn : ((fun q : String × AvroVal => q.1 == kq) ∘
          fun p => if p.1 == k then (k, v) else p) =
          fun p : String × AvroVal => p.1 == kq := by
        funext p
        by_cases h : p.1 = k
        · simp [h, Ne.symm hk, hk]
        · simp [h]
      rw [hfn, if_neg hk]
      cases hfind : st.find? (fun p : String × AvroVal => p.1 == kq) with
      | none => simp
      | some q =>
          have hq := List.find?_some hfind
          have hq2 : q.1 = kq := by simpa using hq
          simp [hq2, hk]
  · unfold setVal valOf
    rw [if_neg hany, List.find?_append]
    by_cases hk : kq = k
    · subst hk
      have hnone : st.find? (fun p : String × AvroVal => p.1 == kq) = none :=
        List.find?_eq_none.mpr
          (fun x hx hpx => hany (List.any_eq_true.mpr ⟨x, hx, hpx⟩))
      simp [hnone, List.find?]
    · cases hfind : st.find? (fun p : String × AvroVal => p.1 == kq) with
      | none =>
          have hkk : (k == kq) = false := by simp [Ne.symm hk]
          simp [hfind, List.find?, hkk, if_neg hk]
      | some q => simp [hfind, if_neg hk]

theorem mem_setVal (st : St) (k : String) (v : AvroVal) (q : String × AvroVal)
    (hq : q ∈ setVal st k v) : q = (k, v) ∨ q ∈ st := by
  unfold setVal at hq
  split at hq
  · rcases List.mem_map.mp hq with ⟨p, hp, hfp⟩
    by_cases h : p.1 == k
    · left; rw [← hfp]; simp [h]
    · right; rw [if_neg h] at hfp; rw [← hfp]; exact hp
  · rcases List.mem_append.mp hq with h | h
    · right; exact h
    · left; simpa using h

theorem pyIdx_zero (i : Int) : pyIdx 0 i = none := by
  unfold pyIdx
  rw [if_neg (by omega), if_neg (by omega)]

theorem pyIdx_nonneg (len : Nat) (i : Int) (h0 : 0 ≤ i) (h : i < (len : Int)) :
    pyIdx len i = some i.toNat := by
  unfold pyIdx
  rw [if_pos ⟨h0, h⟩]

theorem pyIdx_neg (len : Nat) (i : Int) (h0 : -(len : Int) ≤ i) (h : i < 0) :
    pyIdx len i = some ((len : Int) + i).toNat := by
  unfold pyIdx
  rw [if_neg (by omega), if_pos ⟨h0, h⟩]

theorem pyIdx_none (len : Nat) (i : Int) (h : i < -(len : Int) ∨ (len : Int) ≤ i) :
    pyIdx len i = none := by
  unfold pyIdx
  rw [if_neg (by omega), if_neg (by omega)]

/-- Characterization of lines 35-37 of the source: when the computed index equals
the current outer length a fresh slot is created and receives the path (this case
never raises); otherwise the existing outer list is indexed Python-style, raising
`IndexError` when the position does not exist. -/
theorem supStep_eq (outer : List (List String)) (idx : Int) (full : String) :
    supStep outer idx full =
      if (outer.length : Int) = idx then .ok (outer ++ [[full]])
      else
        match pyIdx outer.length idx with
        | none => .error .indexError
        | some j => .ok (outer.set j ((outer.getD j []) ++ [full])) := by
  by_cases h : (outer.length : Int) = idx
  · unfold supStep
    rw [if_pos h, if_pos h]
    have hlen : (outer ++ [[]] : List (List String)).length = outer.length + 1 := by simp
    have hidx : pyIdx (outer ++ [[]] : List (List String)).length idx = some outer.length := by
      rw [hlen, pyIdx_nonneg _ _ (by omega) (by push_cast; omega)]
      rw [← h]
      simp
    dsimp only
    rw [hidx]
    dsimp only
    have hgd : (outer ++ [[]] : List (List String)).getD outer.length [] = [] := by
      rw [List.getD_eq_getElem?_getD, List.getElem?_concat_length]
      rfl
    rw [hgd]
    rw [List.set_append_right _ _ (le_refl _)]
    simp
  · unfold supStep
    rw [if_neg h, if_neg h]

/-! ### Case analysis of one loop iteration -/

theorem processLine_skip (spfx : String) (st : St) (raw : String)
    (h : isQual raw = false) : processLine spfx st raw = .ok st := by
  unfold processLine
  rw [if_pos h]

theorem processLine_sup (spfx : String) (st : St) (raw : String) (p1 : List Char)
    (n : Int) (outer : List (List String))
    (hq : isQual raw = true)
    (hk : lineKey spfx raw ∈ superpartitionedKeys)
    (hp1 : (lineParts spfx raw).get? 1 = some p1)
    (hn : pyInt ((splitCh '_' p1).getLastD []) = some n)
    (ho : supOuter0 st (lineKey spfx raw) = some outer) :
    processLine spfx st raw =
      match supStep outer (n - 1) ⟨lineFull raw⟩ with
      | .error e => .error e
      | .ok outer2 => .ok (setVal st (lineKey spfx raw) (.sup outer2)) := by
  unfold processLine
  rw [if_neg (by simp [hq])]
  dsimp only
  rw [if_pos hk, hp1]
  dsimp only
  rw [hn]
  dsimp only
  rw [ho]

theorem processLine_flat (spfx : String) (st : St) (raw : String)
    (hq : isQual raw = true)
    (hk : lineKey spfx raw ∉ superpartitionedKeys) :
    processLine spfx st raw =
      match valOf st (lineKey spfx raw) with
      | some (.sup _) => .error .attributeError
      | some (.flat xs) =>
          .ok (setVal st (lineKey spfx raw) (.flat (xs ++ [⟨lineFull raw⟩])))
      | none => .ok (setVal st (lineKey spfx raw) (.flat [⟨lineFull raw⟩])) := by
  unfold processLine
  rw [if_neg (by simp [hq])]
  dsimp only
  rw [if_neg hk]

theorem processLine_badint (spfx : String) (st : St) (raw : String) (p1 : List Char)
    (hq : isQual raw = true)
    (hk : lineKey spfx raw ∈ superpartitionedKeys)
    (hp1 : (lineParts spfx raw).get? 1 = some p1)
    (hbad : pyInt ((splitCh '_' p1).getLastD []) = none) :
    processLine spfx st raw = .error .valueError := by
  unfold processLine
  rw [if_neg (by simp [hq])]
  dsimp only
  rw [if_pos hk, hp1]
  dsimp only
  rw [hbad]

theorem supStep_ok (outer : List (List String)) (idx : Int) (full : String)
    (o2 : List (List String)) (h : supStep outer idx full = .ok o2) :
    ∃ j, pyIdx (if (outer.length : Int) = idx then outer ++ [[]] else outer).length
        idx = some j ∧
      o2 = (if (outer.length : Int) = idx then outer ++ [[]] else outer).set j
        (((if (outer.length : Int) = idx then outer ++ [[]] else outer).getD j []) ++
          [full]) := by
  unfold supStep at h
  dsimp only at h
  cases hp : pyIdx (if (outer.length : Int) = idx then outer ++ [[]] else outer).length
      idx with
  | none => rw [hp] at h; exact absurd h (by simp)
  | some j =>
      rw [hp] at h
      dsimp only at h
      cases h
      exact ⟨j, rfl, rfl⟩

theorem processLine_noparts (spfx : String) (st : St) (raw : String)
    (hq : isQual raw = true)
    (hk : lineKey spfx raw ∈ superpartitionedKeys)
    (hp1 : (lineParts spfx raw).get? 1 = none) :
    processLine spfx st raw = .error .indexError := by
  unfold processLine
  rw [if_neg (by simp [hq])]
  dsimp only
  rw [if_pos hk, hp1]

theorem processLine_noattr (spfx : String) (st : St) (raw : String) (p1 : List Char)
    (n : Int)
    (hq : isQual raw = true)
    (hk : lineKey spfx raw ∈ superpartitionedKeys)
    (hp1 : (lineParts spfx raw).get? 1 = some p1)
    (hn : pyInt ((splitCh '_' p1).getLastD []) = some n)
    (ho : supOuter0 st (lineKey spfx raw) = none) :
    processLine spfx st raw = .error .attributeError := by
  unfold processLine
  rw [if_neg (by simp [hq])]
  dsimp only
  rw [if_pos hk, hp1]
  dsimp only
  rw [hn]
  dsimp only
  rw [ho]

theorem pyIdx_some (len : Nat) (i : Int) (j : Nat) (h : pyIdx len i = some j) :
    0 < len ∧ j < len := by
  unfold pyIdx at h
  split at h
  · next hc => cases h; omega
  · split at h
    · next hc => cases h; omega
    · exact absurd h (by simp)

theorem valOf_mem (st : St) (k : String) (v : AvroVal) (h : valOf st k = some v) :
    ∃ q ∈ st, q.1 = k ∧ q.2 = v := by
  unfold valOf at h
  cases hfind : st.find? (fun p : String × AvroVal => p.1 == k) with
  | none => rw [hfind] at h; exact absurd h (by simp)
  | some q =>
      rw [hfind] at h
      have hq1 := List.find?_some hfind
      exact ⟨q, List.mem_of_find?_eq_some hfind, by simpa using hq1, by simpa using h⟩

/-- Values that appear in any state reachable from the empty dictionary: a flat
list is non-empty, and a superpartitioned outer list is non-empty with no empty
inner list. -/
def GoodVal : AvroVal → Prop
  | .flat xs => xs ≠ []
  | .sup o => o ≠ [] ∧ [] ∉ o

/-- A property of states preserved by every successful iteration holds for the
final state of a successful fold. -/
theorem foldlM_inv (f : St → String → Except PyErr St) (P : St → Prop)
    (hf : ∀ st raw st2, P st → f st raw = .ok st2 → P st2) :
    ∀ (lines : List String) (st st2 : St),
      P st → lines.foldlM f st = .ok st2 → P st2 := by
  intro lines
  induction lines with
  | nil =>
      intro st st2 hP h
      rw [List.foldlM_nil] at h
      cases h
      exact hP
  | cons raw rest ih =>
      intro st st2 hP h
      rw [List.foldlM_cons] at h
      cases hstep : f st raw with
      | error e =>
          rw [hstep] at h
          exact Except.noConfusion h
      | ok st1 =>
          rw [hstep] at h
          exact ih st1 st2 (hf st raw st1 hP hstep) h

/-- One loop iteration preserves `GoodVal` for every stored value. -/
theorem processLine_good (spfx : String) (st : St) (raw : String) (st2 : St)
    (hP : ∀ q ∈ st, GoodVal q.2) (h : processLine spfx st raw = .ok st2) :
    ∀ q ∈ st2, GoodVal q.2 := by
  by_cases hq : isQual raw = true
  case neg =>
    have hf : isQual raw = false := by revert hq; cases isQual raw <;> simp
    rw [processLine_skip _ _ _ hf] at h
    cases h
    exact hP
  case pos =>
    by_cases hk : lineKey spfx raw ∈ superpartitionedKeys
    · cases hgp1 : (lineParts spfx raw).get? 1 with
      | none =>
          rw [processLine_noparts spfx st raw hq hk hgp1] at h
          exact Except.noConfusion h
      | some p1 =>
          cases hpi : pyInt ((splitCh '_' p1).getLastD []) with
          | none =>
              rw [processLine_badint spfx st raw p1 hq hk hgp1 hpi] at h
              exact Except.noConfusion h
          | some n =>
              cases ho : supOuter0 st (lineKey spfx raw) with
              | none =>
                  rw [processLine_noattr spfx st raw p1 n hq hk hgp1 hpi ho] at h
                  exact Except.noConfusion h
              | some outer =>
                  have houterGood : outer = [] ∨ GoodVal (.sup outer) := by
                    unfold supOuter0 at ho
                    cases hv : valOf st (lineKey spfx raw) with
                    | none => rw [hv] at ho; cases ho; exact Or.inl rfl
                    | some v =>
                        rw [hv] at ho
                        cases v with
                        | flat xs => exact absurd ho (by simp)
                        | sup o =>
                            cases ho
                            rcases valOf_mem st _ _ hv with ⟨q0, hq0, _, hq02⟩
                            exact Or.inr (hq02 ▸ hP q0 hq0)
                  have hM := (processLine_sup spfx st raw p1 n outer hq hk hgp1 hpi
                    ho).symm.trans h
                  rw [supStep_eq] at hM
                  by_cases hidx : (outer.length : Int) = n - 1
                  · rw [if_pos hidx] at hM
                    dsimp only at hM
                    cases hM
                    intro q hqmem
                    rcases mem_setVal _ _ _ _ hqmem with rfl | hmem
                    · refine ⟨by simp, ?_⟩
                      intro hbad
                      rcases List.mem_append.mp hbad with hbad | hbad
                      · rcases houterGood with rfl | ⟨_, hno⟩
                        · simp at hbad
                        · exact hno hbad
                      · simp at hbad
                    · exact hP q hmem
                  · rw [if_neg hidx] at hM
                    cases hpj : pyIdx outer.length (n - 1) with
                    | none =>
                        rw [hpj] at hM
                        exact Except.noConfusion hM
                    | some j =>
                        rw [hpj] at hM
                        dsimp only at hM
                        cases hM
                        have hlen := pyIdx_some outer.length (n - 1) j hpj
                        intro q hqmem
                        rcases mem_setVal _ _ _ _ hqmem with rfl | hmem
                        · constructor
                          · intro hbad
                            have : (outer.set j (outer.getD j [] ++
                                [(⟨lineFull raw⟩ : String)])).length = outer.length := by
                              simp
                            rw [hbad] at this
                            simp at this
                            omega
                          · intro hbadmem
                            rcases List.mem_or_eq_of_mem_set hbadmem with hmem2 | heq
                            · rcases houterGood with rfl | ⟨_, hno⟩
                              · simp at hmem2
                              · exact hno hmem2
                            · simp at heq
                        · exact hP q hmem
    · have hM := (processLine_flat spfx st raw hq hk).symm.trans h
      cases hv : valOf st (lineKey spfx raw) with
      | none =>
          rw [hv] at hM
          dsimp only at hM
          cases hM
          intro q hqmem
          rcases mem_setVal _ _ _ _ hqmem with rfl | hmem
          · simp [GoodVal]
          · exact hP q hmem
      | some v =>
          rw [hv] at hM
          cases v with
          | sup o =>
              dsimp only at hM
              exact Except.noConfusion hM
          | flat xs =>
              dsimp only at hM
              cases hM
              intro q hqmem
              rcases mem_setVal _ _ _ _ hqmem with rfl | hmem
              · simp [GoodVal]
              · exact hP q hmem

/-! ### The claims -/

/-- Python `line.startswith(pre)` on character lists. -/
def beginsWith (cs pre : List Char) : Bool := cs.take pre.length == pre

/-- C4, counterexample: a qualifying line that does not begin with the normalized
prefix is classified without any error (here under key `junk`), instead of raising
a PrefixMismatchError: no prefix check exists in `generate_avro_dict`. -/
theorem c4_cex :
    isQual "AAAAAAAjunk/a.avro" = true ∧
    slashedPfx "gs://b" = .ok "gs://b/" ∧
    beginsWith "AAAAAAAjunk/a.avro".toList "gs://b/".toList = false ∧
    generate_avro_dict "gs://b" ["AAAAAAAjunk/a.avro"] =
      .ok [("junk", .flat ["AAAAAAAjunk/a.avro"])] :=
  ⟨by decide, by decide, by decide, by decide⟩

/-- C4 (amended): classification never inspects whether a line begins with the
supplied prefix; it depends on the normalized prefix only through its length, so a
qualifying line that does not begin with the prefix is classified like any other
(the leading characters are sliced off blindly) and no error is raised. -/
theorem c4_thm (pa pb sa sb : String) (lines : List String)
    (ha : slashedPfx pa = .ok sa) (hb : slashedPfx pb = .ok sb)
    (hlen : sa.length = sb.length) :
    generate_avro_dict pa lines = generate_avro_dict pb lines := by
  unfold generate_avro_dict
  rw [ha, hb]
  dsimp only
  have hpl : processLine sa = processLine sb := by
    funext st raw
    simp only [processLine, lineKey, lineParts, hlen]
  rw [hpl]

/-- C4, witness for the amended theorem at a concrete mismatched prefix. -/
theorem c4_wit :
    generate_avro_dict "abcdef" ["gs://b/x/a.avro"] =
      generate_avro_dict "gs://b" ["gs://b/x/a.avro"] :=
  c4_thm "abcdef" "gs://b" "abcdef/" "gs://b/" ["gs://b/x/a.avro"]
    (by decide) (by decide) (by decide)

/-- C5: a superpartitioned-category line whose directory suffix after the last
underscore does not parse as an integer makes the whole classification fail with
the integer-parse error (Python ValueError, the FormatError of the spec), however
the listing continues; no partial dictionary is returned (the error carries no
state). -/
theorem c5_thm (p spfx : String) (pre post : List String) (bad : String) (st : St)
    (p1 : List Char)
    (hs : slashedPfx p = .ok spfx)
    (hpre : pre.foldlM (processLine spfx) ([] : St) = .ok st)
    (hq : isQual bad = true)
    (hk : lineKey spfx bad ∈ superpartitionedKeys)
    (hp1 : (lineParts spfx bad).get? 1 = some p1)
    (hbad : pyInt ((splitCh '_' p1).getLastD []) = none) :
    generate_avro_dict p (pre ++ bad :: post) = .error .valueError := by
  unfold generate_avro_dict
  rw [hs]
  dsimp only
  rw [List.foldlM_append, hpre]
  show (bad :: post).foldlM (processLine spfx) st = .error .valueError
  rw [List.foldlM_cons, processLine_badint spfx st bad p1 hq hk hp1 hbad]
  rfl

/-- C5, witness: the malformed directory name `vet_abc` of the spec scenario. -/
theorem c5_wit :
    generate_avro_dict "p" ["p/vets/vet_abc/a.avro"] = .error .valueError :=
  c5_thm "p" "p/" [] [] "p/vets/vet_abc/a.avro" [] "vet_abc".toList
    (by decide) (by decide) (by decide) (by decide) (by decide) (by decide)

/-- C3, counterexample: a superpartitioned line whose computed index (3) differs
from the current outer length (0) and whose inner sequence does not exist makes the
classifier raise an IndexError — it does not silently append. -/
theorem c3_cex :
    lineKey "p/" "p/vets/vet_004/a.avro" ∈ superpartitionedKeys ∧
    lineNum? "p/" "p/vets/vet_004/a.avro" = some 4 ∧
    supOuter0 [] (lineKey "p/" "p/vets/vet_004/a.avro") = some [] ∧
    ((([] : List (List String)).length : Int) ≠ 4 - 1) ∧
    pyIdx ([] : List (List String)).length (4 - 1) = none ∧
    generate_avro_dict "p" ["p/vets/vet_004/a.avro"] = .error .indexError :=
  ⟨by decide, by decide, by decide, by decide, by decide, by decide⟩

/-- C3 (amended): when the computed index does not equal the current outer length
and the inner sequence at that (Python) index does not exist, the classifier raises
an IndexError and the pass aborts; it does not silently append.  (Slot-less
appending happens only when the position already exists, i.e. for an index below
the current length or a negative index within range.) -/
theorem c3_thm (spfx : String) (st : St) (raw : String) (p1 : List Char) (n : Int)
    (outer : List (List String))
    (hq : isQual raw = true)
    (hk : lineKey spfx raw ∈ superpartitionedKeys)
    (hp1 : (lineParts spfx raw).get? 1 = some p1)
    (hn : pyInt ((splitCh '_' p1).getLastD []) = some n)
    (ho : supOuter0 st (lineKey spfx raw) = some outer)
    (hne : (outer.length : Int) ≠ n - 1)
    (hmiss : pyIdx outer.length (n - 1) = none) :
    processLine spfx st raw = .error .indexError := by
  have hPL := processLine_sup spfx st raw p1 n outer hq hk hp1 hn ho
  rw [supStep_eq, if_neg hne, hmiss] at hPL
  exact hPL

/-- C3, witness for the amended theorem. -/
theorem c3_wit :
    processLine "p/" [] "p/vets/vet_004/a.avro" = .error .indexError :=
  c3_thm "p/" [] "p/vets/vet_004/a.avro" "vet_004".toList 4 []
    (by decide) (by decide) (by decide) (by decide) (by decide) (by decide) (by decide)

/-- C10: a superpartitioned line whose numeric suffix is 0 has computed index -1;
no new slot is ever created (the outer length never equals -1): when at least one
inner sequence exists the path is appended to the last one (Python index -1) and
the outer length is unchanged, and when none exists classification fails with an
IndexError. -/
theorem c10_thm (spfx : String) (st : St) (raw : String) (p1 : List Char)
    (outer : List (List String))
    (hq : isQual raw = true)
    (hk : lineKey spfx raw ∈ superpartitionedKeys)
    (hp1 : (lineParts spfx raw).get? 1 = some p1)
    (hn : pyInt ((splitCh '_' p1).getLastD []) = some 0)
    (ho : supOuter0 st (lineKey spfx raw) = some outer) :
    (outer = [] → processLine spfx st raw = .error .indexError) ∧
    (outer ≠ [] →
      processLine spfx st raw =
        .ok (setVal st (lineKey spfx raw)
          (.sup (outer.set (outer.length - 1)
            (outer.getD (outer.length - 1) [] ++ [⟨lineFull raw⟩])))) ∧
      (outer.set (outer.length - 1)
          (outer.getD (outer.length - 1) [] ++ [⟨lineFull raw⟩])).length =
        outer.length) := by
  have hPL := processLine_sup spfx st raw p1 0 outer hq hk hp1 hn ho
  rw [supStep_eq] at hPL
  constructor
  · intro h0
    subst h0
    rw [if_neg (by omega)] at hPL
    simp only [List.length_nil, pyIdx_zero] at hPL
    exact hPL
  · intro hne
    have hlen : 0 < outer.length := List.length_pos.mpr hne
    rw [if_neg (by omega), pyIdx_neg outer.length (0 - 1) (by omega) (by omega)] at hPL
    have hc : ((outer.length : Int) + (0 - 1)).toNat = outer.length - 1 := by omega
    rw [hc] at hPL
    dsimp only at hPL
    exact ⟨hPL, by simp⟩

/-- C10, witness: a `vet_000` line with one existing superpartition is appended to
that (last) slot, and on the empty state it is an IndexError. -/
theorem c10_wit :
    (([["x"]] : List (List String)) = [] →
      processLine "p/" [("vets", .sup [["x"]])] "p/vets/vet_000/b.avro" =
        .error .indexError) ∧
    (([["x"]] : List (List String)) ≠ [] →
      processLine "p/" [("vets", .sup [["x"]])] "p/vets/vet_000/b.avro" =
        .ok (setVal [("vets", .sup [["x"]])] (lineKey "p/" "p/vets/vet_000/b.avro")
          (.sup ([["x"]].set (([["x"]] : List (List String)).length - 1)
            ([["x"]].getD (([["x"]] : List (List String)).length - 1) [] ++
              [⟨lineFull "p/vets/vet_000/b.avro"⟩])))) ∧
      (([["x"]] : List (List String)).set (([["x"]] : List (List String)).length - 1)
          ([["x"]].getD (([["x"]] : List (List String)).length - 1) [] ++
            [⟨lineFull "p/vets/vet_000/b.avro"⟩])).length =
        ([["x"]] : List (List String)).length) :=
  c10_thm "p/" [("vets", .sup [["x"]])] "p/vets/vet_000/b.avro" "vet_000".toList
    [["x"]] (by decide) (by decide) (by decide) (by decide) (by decide)

/-- C1: for a line taking the superpartitioned branch whose suffix parses to `n`
(zero-based index `n - 1`), a successful iteration appends a new empty inner
sequence exactly when the outer sequence has exactly `n - 1` elements, and then
appends the trimmed path to the inner sequence at (Python) position `n - 1`;
other keys are untouched. -/
theorem c1_thm (spfx : String) (st : St) (raw : String) (p1 : List Char) (n : Int)
    (outer : List (List String)) (st2 : St)
    (hq : isQual raw = true)
    (hk : lineKey spfx raw ∈ superpartitionedKeys)
    (hp1 : (lineParts spfx raw).get? 1 = some p1)
    (hn : pyInt ((splitCh '_' p1).getLastD []) = some n)
    (ho : supOuter0 st (lineKey spfx raw) = some outer)
    (hok : processLine spfx st raw = .ok st2) :
    ∃ j, pyIdx (if (outer.length : Int) = n - 1 then outer ++ [[]] else outer).length
        (n - 1) = some j ∧
      st2 = setVal st (lineKey spfx raw)
        (.sup ((if (outer.length : Int) = n - 1 then outer ++ [[]] else outer).set j
          (((if (outer.length : Int) = n - 1 then outer ++ [[]] else outer).getD j
            []) ++ [⟨lineFull raw⟩]))) ∧
      (∀ kq : String, kq ≠ lineKey spfx raw → valOf st2 kq = valOf st kq) := by
  have hPL := processLine_sup spfx st raw p1 n outer hq hk hp1 hn ho
  rw [hok] at hPL
  cases hss : supStep outer (n - 1) ⟨lineFull raw⟩ with
  | error e => rw [hss] at hPL; exact absurd hPL (by simp)
  | ok o2 =>
      rw [hss] at hPL
      dsimp only at hPL
      have hst2 : st2 = setVal st (lineKey spfx raw) (.sup o2) := by
        injection hPL
      rcases supStep_ok outer (n - 1) ⟨lineFull raw⟩ o2 hss with ⟨j, hj, ho2⟩
      refine ⟨j, hj, ?_, ?_⟩
      · rw [hst2, ho2]
      · intro kq hkq
        rw [hst2, valOf_setVal, if_neg hkq]

/-- C1, witness: the second `vet_001` file of the spec scenario is appended to the
existing slot 0 without creating a new slot. -/
theorem c1_wit :
    ∃ j, pyIdx (if ((([["p/vets/vet_001/a.avro"]] : List (List String)).length : Int)
          = 1 - 1) then [["p/vets/vet_001/a.avro"]] ++ [[]]
          else [["p/vets/vet_001/a.avro"]]).length (1 - 1) = some j ∧
      [("vets", AvroVal.sup [["p/vets/vet_001/a.avro", "p/vets/vet_001/b.avro"]])] =
        setVal [("vets", AvroVal.sup [["p/vets/vet_001/a.avro"]])]
          (lineKey "p/" "p/vets/vet_001/b.avro")
          (.sup ((if ((([["p/vets/vet_001/a.avro"]] : List (List String)).length : Int)
              = 1 - 1) then [["p/vets/vet_001/a.avro"]] ++ [[]]
              else [["p/vets/vet_001/a.avro"]]).set j
            (((if ((([["p/vets/vet_001/a.avro"]] : List (List String)).length : Int)
              = 1 - 1) then [["p/vets/vet_001/a.avro"]] ++ [[]]
              else [["p/vets/vet_001/a.avro"]]).getD j []) ++
              [⟨lineFull "p/vets/vet_001/b.avro"⟩]))) ∧
      (∀ kq : String, kq ≠ lineKey "p/" "p/vets/vet_001/b.avro" →
        valOf [("vets", AvroVal.sup [["p/vets/vet_001/a.avro",
          "p/vets/vet_001/b.avro"]])] kq =
        valOf [("vets", AvroVal.sup [["p/vets/vet_001/a.avro"]])] kq) :=
  c1_thm "p/" [("vets", .sup [["p/vets/vet_001/a.avro"]])] "p/vets/vet_001/b.avro"
    "vet_001".toList 1 [["p/vets/vet_001/a.avro"]]
    [("vets", .sup [["p/vets/vet_001/a.avro", "p/vets/vet_001/b.avro"]])]
    (by decide) (by decide) (by decide) (by decide) (by decide) (by decide)

/-! ### C2: ordered superpartition indices -/

/-- The zero-based superpartition index of a line (`int(parts[1].split('_')[-1]) - 1`),
when the line qualifies and the suffix parses. -/
def lineIdx? (spfx raw : String) : Option Int := (lineNum? spfx raw).map (· - 1)

/-- The zero-based indices contributed to key `k` by the lines, in order. -/
def supIndices (spfx k : String) (lines : List String) : List Int :=
  lines.filterMap (fun raw =>
    if isQual raw = true ∧ lineKey spfx raw = k then lineIdx? spfx raw else none)

/-- Every qualifying superpartitioned line parses to an index. -/
def supParsesAll (spfx : String) (lines : List String) : Bool :=
  lines.all (fun raw =>
    !(isQual raw) || !(decide (lineKey spfx raw ∈ superpartitionedKeys)) ||
      (lineIdx? spfx raw).isSome)

/-- A chain condition: each next index is at least the previous one and at most
one more. -/
def goodFrom : Int → List Int → Bool
  | _, [] => true
  | prev, i :: r => (decide (prev ≤ i) && decide (i ≤ prev + 1)) && goodFrom i r

/-- Indices presented in non-decreasing order, starting at 0, with no gaps. -/
def goodSeq : List Int → Bool
  | [] => true
  | i :: r => decide (i = 0) && goodFrom 0 r

/-- Indices merely non-decreasing (the condition of the claim as stated). -/
def nonDecrI : List Int → Bool
  | [] => true
  | [_] => true
  | a :: b :: r => decide (a ≤ b) && nonDecrI (b :: r)

/-- The induction-friendly form of `goodSeq` relative to the current outer length:
each index is the current length (a new slot) or one less (the newest slot). -/
def okFrom : Nat → List Int → Bool
  | _, [] => true
  | len, i :: r =>
      (decide ((len : Int) - 1 ≤ i) && decide (i ≤ (len : Int)) && decide (0 ≤ i)) &&
        okFrom (if (len : Int) = i then len + 1 else len) r

theorem goodFrom_okFrom : ∀ (r : List Int) (prev : Int) (len : Nat),
    goodFrom prev r = true → prev = (len : Int) - 1 → 0 ≤ prev →
    okFrom len r = true := by
  intro r
  induction r with
  | nil => intro prev len _ _ _; rfl
  | cons i r2 ih =>
      intro prev len hg hprev hpos
      unfold goodFrom at hg
      simp only [Bool.and_eq_true, decide_eq_true_eq] at hg
      obtain ⟨⟨h1, h2⟩, h3⟩ := hg
      unfold okFrom
      simp only [Bool.and_eq_true, decide_eq_true_eq]
      refine ⟨⟨⟨by omega, by omega⟩, by omega⟩, ?_⟩
      by_cases hc : (len : Int) = i
      · rw [if_pos hc]
        exact ih i (len + 1) h3 (by omega) (by omega)
      · rw [if_neg hc]
        exact ih i len h3 (by omega) (by omega)

theorem goodSeq_okFrom (l : List Int) (h : goodSeq l = true) : okFrom 0 l = true := by
  cases l with
  | nil => rfl
  | cons i r =>
      unfold goodSeq at h
      simp only [Bool.and_eq_true, decide_eq_true_eq] at h
      obtain ⟨rfl, hg⟩ := h
      unfold okFrom
      simp only [Bool.and_eq_true, decide_eq_true_eq]
      refine ⟨⟨⟨by omega, by omega⟩, by omega⟩, ?_⟩
      rw [if_pos (by omega)]
      exact goodFrom_okFrom r 0 1 hg (by omega) (by omega)

theorem foldl_max_seed_le : ∀ (l : List Int) (a : Int), a ≤ l.foldl max a := by
  intro l
  induction l with
  | nil => intro a; exact le_refl a
  | cons x l2 ih =>
      intro a
      rw [List.foldl_cons]
      exact le_trans (le_max_left a x) (ih (max a x))

theorem supIndices_cons_pos (spfx k raw : String) (rest : List String)
    (h1 : isQual raw = true) (h2 : lineKey spfx raw = k) :
    supIndices spfx k (raw :: rest) =
      match lineIdx? spfx raw with
      | some i => i :: supIndices spfx k rest
      | none => supIndices spfx k rest := by
  unfold supIndices
  rw [List.filterMap_cons, if_pos ⟨h1, h2⟩]
  cases lineIdx? spfx raw <;> rfl

theorem supIndices_cons_neg (spfx k raw : String) (rest : List String)
    (h : ¬(isQual raw = true ∧ lineKey spfx raw = k)) :
    supIndices spfx k (raw :: rest) = supIndices spfx k rest := by
  unfold supIndices
  rw [List.filterMap_cons, if_neg h]

theorem lineNum?_eq (spfx raw : String) (p1 : List Char)
    (h : (lineParts spfx raw).get? 1 = some p1) :
    lineNum? spfx raw = pyInt ((splitCh '_' p1).getLastD []) := by
  unfold lineNum?
  rw [h]

/-- Keys of the superpartitioned set hold `.sup` values, all others `.flat`. -/
def StShape (st : St) : Prop :=
  ∀ q ∈ st, (q.1 ∈ superpartitionedKeys → ∃ o, q.2 = .sup o) ∧
    (q.1 ∉ superpartitionedKeys → ∃ xs, q.2 = .flat xs)

/-- Per-key precondition: the stored outer list has no empty slot and the indices
still to come fit the no-gap discipline relative to its length. -/
def SupInv (spfx : String) (st : St) (k : String) (lines : List String) : Prop :=
  ∃ outer, supOuter0 st k = some outer ∧ [] ∉ outer ∧
    okFrom outer.length (supIndices spfx k lines) = true

theorem supOuter0_setVal_sup (st : St) (k : String) (o : List (List String)) :
    supOuter0 (setVal st k (.sup o)) k = some o := by
  unfold supOuter0
  rw [valOf_setVal, if_pos rfl]

theorem supOuter0_setVal_ne (st : St) (k kq : String) (v : AvroVal) (h : kq ≠ k) :
    supOuter0 (setVal st k v) kq = supOuter0 st kq := by
  unfold supOuter0
  rw [valOf_setVal, if_neg h]

theorem StShape_setVal (st : St) (k : String) (v : AvroVal) (hs : StShape st)
    (hv : (k ∈ superpartitionedKeys → ∃ o, v = .sup o) ∧
      (k ∉ superpartitionedKeys → ∃ xs, v = .flat xs)) :
    StShape (setVal st k v) := by
  intro q hq
  rcases mem_setVal _ _ _ _ hq with rfl | hmem
  · exact hv
  · exact hs q hmem

/-- The classification loop, run from a state whose superpartitioned outer lists
match the no-gap discipline of the remaining indices: it succeeds, and each final
outer length is one more than the running maximum of the indices (seeded with the
starting length minus one). -/
theorem classifyAll (spfx : String) : ∀ (lines : List String) (st : St),
    StShape st →
    supParsesAll spfx lines = true →
    (∀ k ∈ superpartitionedKeys, SupInv spfx st k lines) →
    ∃ st2, lines.foldlM (processLine spfx) st = .ok st2 ∧ StShape st2 ∧
      ∀ k ∈ superpartitionedKeys, ∀ outer, supOuter0 st k = some outer →
        ∃ outer2, supOuter0 st2 k = some outer2 ∧ [] ∉ outer2 ∧
          (outer2.length : Int) =
            (supIndices spfx k lines).foldl max ((outer.length : Int) - 1) + 1 := by
  intro lines
  induction lines with
  | nil =>
      intro st hshape _ hinv
      refine ⟨st, by rfl, hshape, ?_⟩
      intro k hk outer ho
      rcases hinv k hk with ⟨outer1, ho1, hno1, _⟩
      rw [ho] at ho1
      cases ho1
      refine ⟨outer, ho, hno1, ?_⟩
      unfold supIndices
      rw [List.filterMap_nil, List.foldl_nil]
      omega
  | cons raw rest ih =>
      intro st hshape hwf hinv
      have hwfpair : ((!(isQual raw) ||
          !(decide (lineKey spfx raw ∈ superpartitionedKeys)) ||
          (lineIdx? spfx raw).isSome) = true) ∧ supParsesAll spfx rest = true := by
        unfold supParsesAll at hwf ⊢
        rw [List.all_cons, Bool.and_eq_true] at hwf
        exact hwf
      obtain ⟨hwfraw, hwf2⟩ := hwfpair
      rw [List.foldlM_cons]
      by_cases hq : isQual raw = true
      case neg =>
        have hf : isQual raw = false := by revert hq; cases isQual raw <;> simp
        rw [processLine_skip spfx st raw hf]
        have hinv2 : ∀ k ∈ superpartitionedKeys, SupInv spfx st k rest := by
          intro k hk
          rcases hinv k hk with ⟨outer, ho, hno, hok⟩
          rw [supIndices_cons_neg spfx k raw rest (by simp [hf])] at hok
          exact ⟨outer, ho, hno, hok⟩
        rcases ih st hshape hwf2 hinv2 with ⟨st2, hfold, hsh2, hc⟩
        refine ⟨st2, hfold, hsh2, ?_⟩
        intro k hk outer ho
        rcases hc k hk outer ho with ⟨outer2, h1, h2, h3⟩
        refine ⟨outer2, h1, h2, ?_⟩
        rw [supIndices_cons_neg spfx k raw rest (by simp [hf])]
        exact h3
      case pos =>
        by_cases hk : lineKey spfx raw ∈ superpartitionedKeys
        · -- a superpartitioned line
          have hsome : (lineIdx? spfx raw).isSome = true := by
            simpa [hq, hk] using hwfraw
          obtain ⟨i, hIdx⟩ := Option.isSome_iff_exists.mp hsome
          cases hgp1 : (lineParts spfx raw).get? 1 with
          | none =>
              exfalso
              unfold lineIdx? lineNum? at hIdx
              rw [hgp1] at hIdx
              simp at hIdx
          | some p1 =>
          cases hpn : pyInt ((splitCh '_' p1).getLastD []) with
          | none =>
              exfalso
              unfold lineIdx? at hIdx
              rw [lineNum?_eq spfx raw p1 hgp1, hpn] at hIdx
              simp at hIdx
          | some n =>
          have hi : i = n - 1 := by
            unfold lineIdx? at hIdx
            rw [lineNum?_eq spfx raw p1 hgp1, hpn] at hIdx
            simpa using hIdx.symm
          subst hi
          rcases hinv (lineKey spfx raw) hk with ⟨outer, ho, hno, hok⟩
          rw [supIndices_cons_pos spfx (lineKey spfx raw) raw rest hq rfl, hIdx]
            at hok
          dsimp only at hok
          unfold okFrom at hok
          simp only [Bool.and_eq_true, decide_eq_true_eq] at hok
          obtain ⟨⟨⟨hlo, hhi⟩, hpos⟩, hok2⟩ := hok
          have hPL := processLine_sup spfx st raw p1 n outer hq hk hgp1 hpn ho
          rw [supStep_eq] at hPL
          -- the new outer list for this key after the iteration
          by_cases hcase : (outer.length : Int) = n - 1
          · -- fresh slot: outer2 = outer ++ [[full]]
            rw [if_pos hcase] at hPL
            dsimp only at hPL
            rw [hPL]
            have hsup1 : supOuter0 (setVal st (lineKey spfx raw)
                (.sup (outer ++ [[⟨lineFull raw⟩]]))) (lineKey spfx raw) =
                some (outer ++ [[⟨lineFull raw⟩]]) :=
              supOuter0_setVal_sup st (lineKey spfx raw) _
            have hshape1 : StShape (setVal st (lineKey spfx raw)
                (.sup (outer ++ [[⟨lineFull raw⟩]]))) :=
              StShape_setVal st _ _ hshape
                ⟨fun _ => ⟨_, rfl⟩, fun hnk => absurd hk hnk⟩
            have hinv2 : ∀ k ∈ superpartitionedKeys,
                SupInv spfx (setVal st (lineKey spfx raw)
                  (.sup (outer ++ [[⟨lineFull raw⟩]]))) k rest := by
              intro k hk2
              by_cases hkk : k = lineKey spfx raw
              · subst hkk
                refine ⟨outer ++ [[⟨lineFull raw⟩]], hsup1, ?_, ?_⟩
                · intro hbad
                  rcases List.mem_append.mp hbad with hbad | hbad
                  · exact hno hbad
                  · simp at hbad
                · have : (outer ++ [[⟨lineFull raw⟩]] :
                      List (List String)).length = outer.length + 1 := by simp
                  rw [this]
                  rw [if_pos hcase] at hok2
                  exact hok2
              · rcases hinv k hk2 with ⟨o0, ho0, hno0, hok0⟩
                refine ⟨o0, ?_, hno0, ?_⟩
                · rw [supOuter0_setVal_ne st _ k _ hkk]
                  exact ho0
                · rw [supIndices_cons_neg spfx k raw rest
                    (fun hc2 => hkk (hc2.2 ▸ rfl))] at hok0
                  exact hok0
            rcases ih (setVal st (lineKey spfx raw)
                (.sup (outer ++ [[⟨lineFull raw⟩]]))) hshape1 hwf2 hinv2 with
              ⟨st2, hfold, hsh2, hc⟩
            refine ⟨st2, hfold, hsh2, ?_⟩
            intro k hk2 outer0 ho0
            by_cases hkk : k = lineKey spfx raw
            · subst hkk
              rw [ho] at ho0
              cases ho0
              rcases hc (lineKey spfx raw) hk2 (outer ++ [[⟨lineFull raw⟩]]) hsup1 with
                ⟨outer2, h1, h2, h3⟩
              refine ⟨outer2, h1, h2, ?_⟩
              rw [supIndices_cons_pos spfx (lineKey spfx raw) raw rest hq rfl, hIdx]
              dsimp only
              rw [List.foldl_cons]
              have hmax : max ((outer.length : Int) - 1) (n - 1) =
                  ((outer ++ [[⟨lineFull raw⟩]] : List (List String)).length : Int)
                    - 1 := by
                simp only [List.length_append, List.length_cons, List.length_nil]
                push_cast
                omega
              rw [hmax]
              exact h3
            · rcases hc k hk2 outer0 (by
                rw [supOuter0_setVal_ne st _ k _ hkk]; exact ho0) with
                ⟨outer2, h1, h2, h3⟩
              refine ⟨outer2, h1, h2, ?_⟩
              rw [supIndices_cons_neg spfx k raw rest
                (fun hc2 => hkk (hc2.2 ▸ rfl))]
              exact h3
          · -- existing slot: index n-1 equals length-1
            rw [if_neg hcase] at hPL
            have hlen0 : 0 < outer.length := by omega
            have hj : pyIdx outer.length (n - 1) = some (outer.length - 1) := by
              rw [pyIdx_nonneg outer.length (n - 1) (by omega) (by omega)]
              congr 1
              omega
            rw [hj] at hPL
            dsimp only at hPL
            rw [hPL]
            have hlenset : (outer.set (outer.length - 1)
                (outer.getD (outer.length - 1) [] ++ [(⟨lineFull raw⟩ : String)])).length
                = outer.length := by simp
            have hsup1 : supOuter0 (setVal st (lineKey spfx raw)
                (.sup (outer.set (outer.length - 1)
                  (outer.getD (outer.length - 1) [] ++ [⟨lineFull raw⟩]))))
                (lineKey spfx raw) =
                some (outer.set (outer.length - 1)
                  (outer.getD (outer.length - 1) [] ++ [⟨lineFull raw⟩])) :=
              supOuter0_setVal_sup st (lineKey spfx raw) _
            have hno1 : ([] : List String) ∉ outer.set (outer.length - 1)
                (outer.getD (outer.length - 1) [] ++ [(⟨lineFull raw⟩ : String)]) := by
              intro hbad
              rcases List.mem_or_eq_of_mem_set hbad with hmem2 | heq
              · exact hno hmem2
              · simp at heq
            have hshape1 : StShape (setVal st (lineKey spfx raw)
                (.sup (outer.set (outer.length - 1)
                  (outer.getD (outer.length - 1) [] ++ [⟨lineFull raw⟩])))) :=
              StShape_setVal st _ _ hshape
                ⟨fun _ => ⟨_, rfl⟩, fun hnk => absurd hk hnk⟩
            have hinv2 : ∀ k ∈ superpartitionedKeys,
                SupInv spfx (setVal st (lineKey spfx raw)
                  (.sup (outer.set (outer.length - 1)
                    (outer.getD (outer.length - 1) [] ++ [⟨lineFull raw⟩])))) k rest := by
              intro k hk2
              by_cases hkk : k = lineKey spfx raw
              · subst hkk
                refine ⟨_, hsup1, hno1, ?_⟩
                rw [hlenset]
                rw [if_neg hcase] at hok2
                exact hok2
              · rcases hinv k hk2 with ⟨o0, ho0, hno0, hok0⟩
                refine ⟨o0, ?_, hno0, ?_⟩
                · rw [supOuter0_setVal_ne st _ k _ hkk]
                  exact ho0
                · rw [supIndices_cons_neg spfx k raw rest
                    (fun hc2 => hkk (hc2.2 ▸ rfl))] at hok0
                  exact hok0
            rcases ih (setVal st (lineKey spfx raw)
                (.sup (outer.set (outer.length - 1)
                  (outer.getD (outer.length - 1) [] ++ [⟨lineFull raw⟩]))))
                hshape1 hwf2 hinv2 with ⟨st2, hfold, hsh2, hc⟩
            refine ⟨st2, hfold, hsh2, ?_⟩
            intro k hk2 outer0 ho0
            by_cases hkk : k = lineKey spfx raw
            · subst hkk
              rw [ho] at ho0
              cases ho0
              rcases hc (lineKey spfx raw) hk2 _ hsup1 with ⟨outer2, h1, h2, h3⟩
              refine ⟨outer2, h1, h2, ?_⟩
              rw [supIndices_cons_pos spfx (lineKey spfx raw) raw rest hq rfl, hIdx]
              dsimp only
              rw [List.foldl_cons]
              have hmax : max ((outer.length : Int) - 1) (n - 1) =
                  (outer.length : Int) - 1 := by omega
              rw [hmax]
              rw [hlenset] at h3
              exact h3
            · rcases hc k hk2 outer0 (by
                rw [supOuter0_setVal_ne st _ k _ hkk]; exact ho0) with
                ⟨outer2, h1, h2, h3⟩
              refine ⟨outer2, h1, h2, ?_⟩
              rw [supIndices_cons_neg spfx k raw rest
                (fun hc2 => hkk (hc2.2 ▸ rfl))]
              exact h3
        · -- a flat line
          have hval : valOf st (lineKey spfx raw) = none ∨
              ∃ xs, valOf st (lineKey spfx raw) = some (.flat xs) := by
            cases hv : valOf st (lineKey spfx raw) with
            | none => exact Or.inl rfl
            | some v =>
                rcases valOf_mem st _ _ hv with ⟨q0, hq0, hq01, hq02⟩
                rcases (hshape q0 hq0).2 (hq01.symm ▸ hk) with ⟨xs, hxs⟩
                have hvx : v = .flat xs := by rw [← hq02, hxs]
                exact Or.inr ⟨xs, by rw [hvx]⟩
          have hPL := processLine_flat spfx st raw hq hk
          -- the new flat value
          obtain ⟨newxs, hPL2⟩ : ∃ newxs, processLine spfx st raw =
              .ok (setVal st (lineKey spfx raw) (.flat newxs)) := by
            rcases hval with hv | ⟨xs, hv⟩
            · exact ⟨[⟨lineFull raw⟩], by rw [hPL, hv]⟩
            · exact ⟨xs ++ [⟨lineFull raw⟩], by rw [hPL, hv]⟩
          rw [hPL2]
          have hshape1 : StShape (setVal st (lineKey spfx raw) (.flat newxs)) :=
            StShape_setVal st _ _ hshape
              ⟨fun hk2 => absurd hk2 hk, fun _ => ⟨newxs, rfl⟩⟩
          have hinv2 : ∀ k ∈ superpartitionedKeys,
              SupInv spfx (setVal st (lineKey spfx raw) (.flat newxs)) k rest := by
            intro k hk2
            have hkk : k ≠ lineKey spfx raw := fun hc2 => hk (hc2 ▸ hk2)
            rcases hinv k hk2 with ⟨o0, ho0, hno0, hok0⟩
            refine ⟨o0, ?_, hno0, ?_⟩
            · rw [supOuter0_setVal_ne st _ k _ hkk]
              exact ho0
            · rw [supIndices_cons_neg spfx k raw rest
                (fun hc2 => hk (hc2.2 ▸ hk2))] at hok0
              exact hok0
          rcases ih (setVal st (lineKey spfx raw) (.flat newxs)) hshape1 hwf2 hinv2
            with ⟨st2, hfold, hsh2, hc⟩
          refine ⟨st2, hfold, hsh2, ?_⟩
          intro k hk2 outer0 ho0
          have hkk : k ≠ lineKey spfx raw := fun hc2 => hk (hc2 ▸ hk2)
          rcases hc k hk2 outer0 (by
              rw [supOuter0_setVal_ne st _ k _ hkk]; exact ho0) with
            ⟨outer2, h1, h2, h3⟩
          refine ⟨outer2, h1, h2, ?_⟩
          rw [supIndices_cons_neg spfx k raw rest (fun hc2 => hk (hc2.2 ▸ hk2))]
          exact h3

/-- C9: on every input on which classification returns normally, every group in
the returned dictionary is non-empty: each flat sequence holds at least one path,
and for superpartitioned values the outer sequence is non-empty and every inner
sequence holds at least one path. -/
theorem c9_thm (p : String) (lines : List String) (st : St)
    (h : generate_avro_dict p lines = .ok st) :
    ∀ q ∈ st, (∀ xs, q.2 = .flat xs → xs ≠ []) ∧
      (∀ o, q.2 = .sup o → o ≠ [] ∧ [] ∉ o) := by
  unfold generate_avro_dict at h
  cases hs : slashedPfx p with
  | error e => rw [hs] at h; exact Except.noConfusion h
  | ok spfx =>
      rw [hs] at h
      dsimp only at h
      have hinv := foldlM_inv (processLine spfx) (fun s => ∀ q ∈ s, GoodVal q.2)
        (fun st0 raw st2 hP hstep => processLine_good spfx st0 raw st2 hP hstep)
        lines [] st (by intro q hq; simp at hq) h
      intro q hq
      have hg := hinv q hq
      constructor
      · intro xs hxs; rw [hxs] at hg; exact hg
      · intro o ho; rw [ho] at hg; exact hg

/-- C2, counterexample: the single line `vet_002` presents its indices (just 1) in
non-decreasing order, yet classification raises an IndexError instead of
succeeding: the first index of a superpartitioned category must be 0 and no index
may be skipped. -/
theorem c2_cex :
    supIndices "p/" "vets" ["p/vets/vet_002/a.avro"] = [1] ∧
    nonDecrI (supIndices "p/" "vets" ["p/vets/vet_002/a.avro"]) = true ∧
    generate_avro_dict "p" ["p/vets/vet_002/a.avro"] = .error .indexError :=
  ⟨by decide, by decide, by decide⟩

/-- C2 (amended): when, for each superpartitioned category, the indices are
presented in non-decreasing order starting at 0 with no gaps (each next index at
most one more than the previous), and every superpartitioned line parses,
classification succeeds and the outer sequence of each non-empty category has
length `max(index) + 1` with every slot non-empty. -/
theorem c2_thm (p spfx : String) (lines : List String)
    (hs : slashedPfx p = .ok spfx)
    (hwf : supParsesAll spfx lines = true)
    (hgood : ∀ k ∈ superpartitionedKeys, goodSeq (supIndices spfx k lines) = true) :
    ∃ st, generate_avro_dict p lines = .ok st ∧
      ∀ k ∈ superpartitionedKeys, supIndices spfx k lines ≠ [] →
        ∃ outer, valOf st k = some (.sup outer) ∧
          (outer.length : Int) = (supIndices spfx k lines).foldl max (-1) + 1 ∧
          [] ∉ outer := by
  have hinv : ∀ k ∈ superpartitionedKeys, SupInv spfx ([] : St) k lines := by
    intro k hk
    exact ⟨[], rfl, by simp, goodSeq_okFrom _ (hgood k hk)⟩
  rcases classifyAll spfx lines [] (by intro q hq; simp at hq) hwf hinv with
    ⟨st2, hfold, hsh2, hc⟩
  refine ⟨st2, ?_, ?_⟩
  · unfold generate_avro_dict
    rw [hs]
    dsimp only
    exact hfold
  · intro k hk hne
    rcases hc k hk [] rfl with ⟨outer2, h1, h2, h3⟩
    have hseed : ((([] : List (List String)).length : Int) - 1) = -1 := by simp
    rw [hseed] at h3
    have hg := hgood k hk
    have h0 : 0 ≤ (supIndices spfx k lines).foldl max (-1) := by
      cases hidx : supIndices spfx k lines with
      | nil => exact absurd hidx hne
      | cons a l =>
          rw [hidx] at hg
          unfold goodSeq at hg
          simp only [Bool.and_eq_true, decide_eq_true_eq] at hg
          obtain ⟨rfl, _⟩ := hg
          rw [List.foldl_cons]
          have hm : max (-1 : Int) 0 = 0 := by omega
          rw [hm]
          exact foldl_max_seed_le l 0
    have hlen : 0 < outer2.length := by omega
    have hval : valOf st2 k = some (.sup outer2) := by
      unfold supOuter0 at h1
      cases hv : valOf st2 k with
      | none =>
          rw [hv] at h1
          cases h1
          simp at hlen
      | some v =>
          cases v with
          | flat xs => rw [hv] at h1; exact absurd h1 (by simp)
          | sup o => rw [hv] at h1; cases h1; rfl
    exact ⟨outer2, hval, h3, h2⟩

/-- C2, witness for the amended theorem on the spec scenario listing. -/
theorem c2_wit :
    ∃ st, generate_avro_dict "p"
        ["p/vets/vet_001/a.avro", "p/vets/vet_001/b.avro",
         "p/vets/vet_002/c.avro", "p/sample_mapping_data/d.avro"] = .ok st ∧
      ∀ k ∈ superpartitionedKeys,
        supIndices "p/" k ["p/vets/vet_001/a.avro", "p/vets/vet_001/b.avro",
          "p/vets/vet_002/c.avro", "p/sample_mapping_data/d.avro"] ≠ [] →
        ∃ outer, valOf st k = some (.sup outer) ∧
          (outer.length : Int) =
            (supIndices "p/" k ["p/vets/vet_001/a.avro", "p/vets/vet_001/b.avro",
              "p/vets/vet_002/c.avro", "p/sample_mapping_data/d.avro"]).foldl max
              (-1) + 1 ∧
          [] ∉ outer :=
  c2_thm "p" "p/"
    ["p/vets/vet_001/a.avro", "p/vets/vet_001/b.avro",
     "p/vets/vet_002/c.avro", "p/sample_mapping_data/d.avro"]
    (by decide) (by decide)
    (by
      intro k hk
      have hcases : k = "vets" ∨ k = "refs" := by
        simpa [superpartitionedKeys] using hk
      rcases hcases with rfl | rfl <;> decide)

/-- C9, witness on a concrete classified listing. -/
theorem c9_wit :
    [["p/vets/vet_001/a.avro"]] ≠ ([] : List (List String)) ∧
    ([] : List String) ∉ [["p/vets/vet_001/a.avro"]] :=
  (c9_thm "p" ["p/vets/vet_001/a.avro", "p/x/b.avro"]
    [("vets", AvroVal.sup [["p/vets/vet_001/a.avro"]]),
     ("x", AvroVal.flat ["p/x/b.avro"])] (by decide)
    ("vets", AvroVal.sup [["p/vets/vet_001/a.avro"]]) (by decide)).2
    [["p/vets/vet_001/a.avro"]] rfl

theorem intercalate_cons2 {α : Type} (sep a b : List α) (t : List (List α)) :
    List.intercalate sep (a :: b :: t) = a ++ sep ++ List.intercalate sep (b :: t) := by
  unfold List.intercalate
  rw [List.intersperse_cons₂]
  simp [List.append_assoc]

/-- C8: serialization produces one `key=value` assignment per entry, where the
value is the `json.dumps` rendering of the entry, and joins the assignments with a
comma and a newline in the order the entries are stored (insertion order). -/
theorem c8_thm :
    (∀ (k : String) (v : JVal),
      generate_avro_args [(k, v)] = (⟨k.toList ++ '=' :: dumpsL v⟩ : String)) ∧
    (∀ (k : String) (v : JVal) (d : ArgDict), d ≠ [] →
      generate_avro_args ((k, v) :: d) =
        (⟨k.toList ++ '=' :: dumpsL v⟩ : String) ++ ",\n" ++ generate_avro_args d) := by
  constructor
  · intro k v
    unfold generate_avro_args entryL
    simp [List.intercalate]
  · intro k v d hd
    cases d with
    | nil => exact absurd rfl hd
    | cons e t =>
        unfold generate_avro_args entryL
        rw [List.map_cons, List.map_cons, intercalate_cons2]
        rfl

/-- C8, witness at concrete entries. -/
theorem c8_wit :
    generate_avro_args [("a", []), ("b", [JElem.js "x"])] =
      (⟨"a".toList ++ '=' :: dumpsL []⟩ : String) ++ ",\n" ++
        generate_avro_args [("b", [JElem.js "x"])] :=
  c8_thm.2 "a" [] [("b", [JElem.js "x"])] (by decide)

/-- C6: the body of the second (derived-output) template is NOT emitted verbatim:
it is an f-string, and the line `sample_id_to_sub_population_map = \x7b\x7d`
(line 124 of the source, inside the template body of
`generate_vat_inputs_script`) contains an unescaped empty brace pair, which
f-string scanning rejects (Python: SyntaxError, f-string: empty expression not
allowed).  The module therefore does not even compile, so the function cannot
return the template with only the five placeholders substituted. -/
theorem c6_thm :
    fscan "sample_id_to_sub_population_map = \x7b\x7d" = none := by decide

/-! ### C7: injectivity of the serializer

The proof decodes the serialized text back.  `decBody` is a fueled decoder of
JSON string bodies that is a left inverse of `escChar`; on top of it, prefix
determinacy is proved for string literals, elements, dumped values, entries and
finally whole argument strings. -/

/-- Value of one lowercase hexadecimal digit. -/
def hexVal? (c : Char) : Option Nat :=
  if 48 ≤ c.toNat ∧ c.toNat ≤ 57 then some (c.toNat - 48)
  else if 97 ≤ c.toNat ∧ c.toNat ≤ 102 then some (c.toNat - 87)
  else none

theorem hexVal?_hexChar (d : Nat) (h : d < 16) : hexVal? (hexChar d) = some d := by
  interval_cases d <;> decide

/-- Parse four lowercase hex digits. -/
def parse4 : List Char → Option (Nat × List Char)
  | h1 :: h2 :: h3 :: h4 :: r =>
    match hexVal? h1, hexVal? h2, hexVal? h3, hexVal? h4 with
    | some a, some b, some c, some d => some (a * 4096 + b * 256 + c * 16 + d, r)
    | _, _, _, _ => none
  | _ => none

/-- Decode a `\uXXXX` escape (with a following low-surrogate escape when the
first one is a high surrogate), the text after the backslash-u already split off. -/
def decU (r2 : List Char) : Option (Char × List Char) :=
  match parse4 r2 with
  | none => none
  | some (n, r3) =>
    if 55296 ≤ n ∧ n < 56320 then
      match r3 with
      | c3 :: c4 :: r3b =>
        if c3 = '\\' ∧ c4 = 'u' then
          match parse4 r3b with
          | none => none
          | some (m, r4) =>
            if 56320 ≤ m ∧ m < 57344 then
              some (Char.ofNat (65536 + (n - 55296) * 1024 + (m - 56320)), r4)
            else none
        else none
      | _ => none
    else if 56320 ≤ n ∧ n < 57344 then none
    else some (Char.ofNat n, r3)

/-- Decoder of one escape unit of a JSON string body (one source character of the
encoded string), inverse to `escChar`. -/
def decOne : List Char → Option (Char × List Char) := fun cs =>
  match cs with
  | [] => none
  | c :: r =>
    if c = '\\' then
      match r with
      | [] => none
      | e :: r2 =>
        if e = '"' then some ('"', r2)
        else if e = '\\' then some ('\\', r2)
        else if e = 'n' then some ('\n', r2)
        else if e = 't' then some ('\t', r2)
        else if e = 'r' then some ('\r', r2)
        else if e = 'b' then some (Char.ofNat 8, r2)
        else if e = 'f' then some (Char.ofNat 12, r2)
        else if e = 'u' then decU r2
        else none
    else if c = '"' then none
    else if 32 ≤ c.toNat ∧ c.toNat < 127 then some (c, r)
    else none

/-- Decoder of JSON string bodies (everything after the opening quote, up to and
including the closing quote).  The fuel bounds the number of decoded characters. -/
def decBody : Nat → List Char → Option (List Char × List Char)
  | 0, _ => none
  | fuel + 1, cs =>
    if cs.headD ' ' = '"' then some ([], cs.tail)
    else
      match decOne cs with
      | none => none
      | some (c, r) => (decBody fuel r).map (fun pr => (c :: pr.1, pr.2))

theorem parse4_hex4 (n : Nat) (r : List Char) (h : n < 65536) :
    parse4 (hex4 n ++ r) = some (n, r) := by
  unfold hex4
  show parse4 (hexChar (n / 4096 % 16) :: hexChar (n / 256 % 16) ::
      hexChar (n / 16 % 16) :: hexChar (n % 16) :: r) = _
  have e1 := hexVal?_hexChar (n / 4096 % 16) (by omega)
  have e2 := hexVal?_hexChar (n / 256 % 16) (by omega)
  have e3 := hexVal?_hexChar (n / 16 % 16) (by omega)
  have e4 := hexVal?_hexChar (n % 16) (by omega)
  have hA : n / 4096 % 16 * 4096 + n / 256 % 16 * 256 + n / 16 % 16 * 16 + n % 16
      = n := by omega
  simp [parse4, e1, e2, e3, e4, hA]

theorem decU_single (n : Nat) (s : List Char) (hlt : n < 65536)
    (hns1 : ¬(55296 ≤ n ∧ n < 56320)) (hns2 : ¬(56320 ≤ n ∧ n < 57344)) :
    decU (hex4 n ++ s) = some (Char.ofNat n, s) := by
  unfold decU
  rw [parse4_hex4 n s hlt]
  dsimp only
  rw [if_neg hns1, if_neg hns2]

theorem decU_pair_gen (hi lo : Nat) (s : List Char)
    (hhi : 55296 ≤ hi ∧ hi < 56320) (hlo : 56320 ≤ lo ∧ lo < 57344) :
    decU (hex4 hi ++ ('\\' :: 'u' :: (hex4 lo ++ s))) =
      some (Char.ofNat (65536 + (hi - 55296) * 1024 + (lo - 56320)), s) := by
  unfold decU
  rw [parse4_hex4 hi _ (by omega)]
  dsimp only
  rw [if_pos hhi]
  rw [if_pos (by decide : ('\\' : Char) = '\\' ∧ ('u' : Char) = 'u')]
  rw [parse4_hex4 lo s (by omega)]
  dsimp only
  rw [if_pos hlo]

theorem decU_pair (n : Nat) (s : List Char)
    (hge : 65536 ≤ n) (hlt : n < 1114112) :
    decU (hex4 (55296 + (n - 65536) / 1024) ++
      ('\\' :: 'u' :: (hex4 (56320 + (n - 65536) % 1024) ++ s))) =
      some (Char.ofNat n, s) := by
  rw [decU_pair_gen (55296 + (n - 65536) / 1024) (56320 + (n - 65536) % 1024) s
    (by omega) (by omega)]
  have hC : 65536 + (55296 + (n - 65536) / 1024 - 55296) * 1024 +
      (56320 + (n - 65536) % 1024 - 56320) = n := by omega
  rw [hC]

theorem decOne_u (n : Nat) (s : List Char) (hlt : n < 65536)
    (hns1 : ¬(55296 ≤ n ∧ n < 56320)) (hns2 : ¬(56320 ≤ n ∧ n < 57344)) :
    decOne ('\\' :: 'u' :: (hex4 n ++ s)) = some (Char.ofNat n, s) := by
  have h := decU_single n s hlt hns1 hns2
  simp [decOne, h]

theorem decOne_upair (n : Nat) (s : List Char)
    (hge : 65536 ≤ n) (hlt : n < 1114112) :
    decOne ('\\' :: 'u' :: (hex4 (55296 + (n - 65536) / 1024) ++
      ('\\' :: 'u' :: (hex4 (56320 + (n - 65536) % 1024) ++ s)))) =
      some (Char.ofNat n, s) := by
  have h := decU_pair n s hge hlt
  simp [decOne, h]

theorem decOne_esc (c : Char) (s : List Char) :
    decOne (escChar c ++ s) = some (c, s) := by
  have hval : c.toNat < 55296 ∨ (57343 < c.toNat ∧ c.toNat < 1114112) := c.valid
  unfold escChar
  by_cases h1 : c = '"'
  · subst h1
    rw [if_pos rfl]
    show decOne ('\\' :: '"' :: s) = _
    simp [decOne]
  all_goals rw [if_neg h1]
  by_cases h2 : c = '\\'
  · subst h2
    rw [if_pos rfl]
    show decOne ('\\' :: '\\' :: s) = _
    simp [decOne]
  all_goals rw [if_neg h2]
  by_cases h3 : c = '\n'
  · subst h3
    rw [if_pos rfl]
    show decOne ('\\' :: 'n' :: s) = _
    simp [decOne]
  all_goals rw [if_neg h3]
  by_cases h4 : c = '\t'
  · subst h4
    rw [if_pos rfl]
    show decOne ('\\' :: 't' :: s) = _
    simp [decOne]
  all_goals rw [if_neg h4]
  by_cases h5 : c = '\r'
  · subst h5
    rw [if_pos rfl]
    show decOne ('\\' :: 'r' :: s) = _
    simp [decOne]
  all_goals rw [if_neg h5]
  by_cases h6 : c.toNat = 8
  · rw [if_pos h6]
    have hc : Char.ofNat 8 = c := by rw [← h6, Char.ofNat_toNat]
    show decOne ('\\' :: 'b' :: s) = _
    simp [decOne]
    exact hc
  all_goals rw [if_neg h6]
  by_cases h7 : c.toNat = 12
  · rw [if_pos h7]
    have hc : Char.ofNat 12 = c := by rw [← h7, Char.ofNat_toNat]
    show decOne ('\\' :: 'f' :: s) = _
    simp [decOne]
    exact hc
  all_goals rw [if_neg h7]
  by_cases h8 : c.toNat < 32 ∨ (127 ≤ c.toNat ∧ c.toNat < 65536)
  · rw [if_pos h8]
    show decOne ('\\' :: 'u' :: (hex4 c.toNat ++ s)) = _
    rw [decOne_u c.toNat s (by omega) (by omega) (by omega), Char.ofNat_toNat]
  all_goals rw [if_neg h8]
  by_cases h9 : c.toNat < 127
  · rw [if_pos h9]
    show decOne (c :: s) = _
    have hcc : 32 ≤ c.toNat ∧ c.toNat < 127 := by omega
    simp [decOne, h1, h2, hcc]
  all_goals rw [if_neg h9]
  show decOne ('\\' :: 'u' ::
      (hex4 (55296 + (c.toNat - 65536) / 1024) ++
        ('\\' :: 'u' :: (hex4 (56320 + (c.toNat - 65536) % 1024) ++ s)))) = _
  rw [decOne_upair c.toNat s (by omega) (by omega), Char.ofNat_toNat]

theorem escChar_head (c : Char) (s : List Char) :
    (escChar c ++ s).headD ' ' ≠ '"' := by
  unfold escChar
  by_cases h1 : c = '"'
  · subst h1; rw [if_pos rfl]; simp
  all_goals rw [if_neg h1]
  by_cases h2 : c = '\\'
  · subst h2; rw [if_pos rfl]; simp
  all_goals rw [if_neg h2]
  by_cases h3 : c = '\n'
  · subst h3; rw [if_pos rfl]; simp
  all_goals rw [if_neg h3]
  by_cases h4 : c = '\t'
  · subst h4; rw [if_pos rfl]; simp
  all_goals rw [if_neg h4]
  by_cases h5 : c = '\r'
  · subst h5; rw [if_pos rfl]; simp
  all_goals rw [if_neg h5]
  by_cases h6 : c.toNat = 8
  · rw [if_pos h6]; simp
  all_goals rw [if_neg h6]
  by_cases h7 : c.toNat = 12
  · rw [if_pos h7]; simp
  all_goals rw [if_neg h7]
  by_cases h8 : c.toNat < 32 ∨ (127 ≤ c.toNat ∧ c.toNat < 65536)
  · rw [if_pos h8]; simp
  all_goals rw [if_neg h8]
  by_cases h9 : c.toNat < 127
  · rw [if_pos h9]
    show (c :: s).headD ' ' ≠ '"'
    simpa using h1
  all_goals rw [if_neg h9]
  simp

theorem decBody_step (c : Char) (s : List Char) (fuel : Nat) :
    decBody (fuel + 1) (escChar c ++ s) =
      (decBody fuel s).map (fun pr => (c :: pr.1, pr.2)) := by
  show (if (escChar c ++ s).headD ' ' = '"' then some ([], (escChar c ++ s).tail)
    else match decOne (escChar c ++ s) with
      | none => none
      | some (c, r) => (decBody fuel r).map (fun pr => (c :: pr.1, pr.2))) = _
  rw [if_neg (escChar_head c s), decOne_esc]

/-- The escaped body of a JSON string literal. -/
def escListL (cs : List Char) : List Char := (cs.map escChar).flatten

theorem decBody_escList (cs : List Char) : ∀ (r : List Char) (fuel : Nat),
    cs.length + 1 ≤ fuel →
    decBody fuel (escListL cs ++ '"' :: r) = some (cs, r) := by
  induction cs with
  | nil =>
      intro r fuel hf
      cases fuel with
      | zero => omega
      | succ f =>
          show decBody (f + 1) ('"' :: r) = some ([], r)
          simp [decBody]
  | cons c cs2 ih =>
      intro r fuel hf
      cases fuel with
      | zero => simp at hf
      | succ f =>
          have hsplit : escListL (c :: cs2) ++ '"' :: r =
              escChar c ++ (escListL cs2 ++ '"' :: r) := by
            simp [escListL, List.append_assoc]
          rw [hsplit, decBody_step c _ f,
            ih r f (by simp only [List.length_cons] at hf; omega)]
          rfl

theorem jsonStrL_inj_append (x1 x2 : String) (r1 r2 : List Char)
    (h : jsonStrL x1 ++ r1 = jsonStrL x2 ++ r2) : x1 = x2 ∧ r1 = r2 := by
  have h3 := h
  simp only [jsonStrL, List.cons_append] at h3
  rw [List.append_assoc, List.append_assoc] at h3
  simp only [List.singleton_append] at h3
  injection h3 with hhd h2
  have d1 := decBody_escList x1.toList r1
    (x1.toList.length + x2.toList.length + 2) (by omega)
  have d2 := decBody_escList x2.toList r2
    (x1.toList.length + x2.toList.length + 2) (by omega)
  rw [show escListL x1.toList ++ '"' :: r1 = (x1.toList.map escChar).flatten ++
    '"' :: r1 from rfl] at d1
  rw [show escListL x2.toList ++ '"' :: r2 = (x2.toList.map escChar).flatten ++
    '"' :: r2 from rfl] at d2
  rw [h2, d2] at d1
  have d3 := Option.some.inj d1
  have hx : x2.toList = x1.toList := congrArg Prod.fst d3
  have hr : r2 = r1 := congrArg Prod.snd d3
  refine ⟨?_, hr.symm⟩
  cases x1
  cases x2
  exact congrArg String.mk hx.symm

/-- The joined inner string lines of a nested (superpartition) element. -/
def innerL (xs : List String) : List Char :=
  List.intercalate [',', '\n'] (xs.map (fun x => pad 8 ++ jsonStrL x))

/-- The joined element lines of a dumped value. -/
def topL (es : JVal) : List Char :=
  List.intercalate [',', '\n'] (es.map (fun e => pad 4 ++ elemL e))

theorem innerL_single (x : String) : innerL [x] = pad 8 ++ jsonStrL x := by
  simp [innerL, List.intercalate]

theorem innerL_cons2 (x y : String) (t : List String) (r : List Char) :
    innerL (x :: y :: t) ++ r =
      pad 8 ++ (jsonStrL x ++ (',' :: '\n' :: (innerL (y :: t) ++ r))) := by
  unfold innerL
  rw [List.map_cons, List.map_cons, intercalate_cons2]
  simp [List.append_assoc]

theorem topL_single (e : JElem) : topL [e] = pad 4 ++ elemL e := by
  simp [topL, List.intercalate]

theorem topL_cons2 (e f : JElem) (t : List JElem) (r : List Char) :
    topL (e :: f :: t) ++ r =
      pad 4 ++ (elemL e ++ (',' :: '\n' :: (topL (f :: t) ++ r))) := by
  unfold topL
  rw [List.map_cons, List.map_cons, intercalate_cons2]
  simp [List.append_assoc]

theorem inner_inj : ∀ (xs1 xs2 : List String) (r1 r2 : List Char),
    xs1 ≠ [] → xs2 ≠ [] →
    r1.headD ' ' = '\n' → r2.headD ' ' = '\n' →
    innerL xs1 ++ r1 = innerL xs2 ++ r2 → xs1 = xs2 ∧ r1 = r2 := by
  intro xs1
  induction xs1 with
  | nil => intro xs2 r1 r2 hne1; exact absurd rfl hne1
  | cons x1 t1 ih =>
      intro xs2 r1 r2 _ hne2 hr1 hr2 h
      cases xs2 with
      | nil => exact absurd rfl hne2
      | cons x2 t2 =>
          cases t1 with
          | nil =>
              cases t2 with
              | nil =>
                  rw [innerL_single, innerL_single] at h
                  rw [List.append_assoc, List.append_assoc] at h
                  have h2 := List.append_inj_right h rfl
                  rcases jsonStrL_inj_append x1 x2 r1 r2 h2 with ⟨hx, hr⟩
                  exact ⟨by rw [hx], hr⟩
              | cons y2 t2b =>
                  rw [innerL_single] at h
                  rw [List.append_assoc, innerL_cons2] at h
                  have h2 := List.append_inj_right h rfl
                  rcases jsonStrL_inj_append x1 x2 _ _ h2 with ⟨_, hr⟩
                  rw [hr] at hr1
                  simp at hr1
          | cons y1 t1b =>
              cases t2 with
              | nil =>
                  rw [innerL_cons2] at h
                  rw [innerL_single, List.append_assoc] at h
                  have h2 := List.append_inj_right h rfl
                  rcases jsonStrL_inj_append x1 x2 _ _ h2 with ⟨_, hr⟩
                  rw [← hr] at hr2
                  simp at hr2
              | cons y2 t2b =>
                  rw [innerL_cons2, innerL_cons2] at h
                  have h2 := List.append_inj_right h rfl
                  rcases jsonStrL_inj_append x1 x2 _ _ h2 with ⟨hx, hr⟩
                  injection hr with _ hr3
                  injection hr3 with _ hr4
                  rcases ih (y2 :: t2b) r1 r2 (by simp) (by simp) hr1 hr2 hr4 with
                    ⟨ht, hrr⟩
                  exact ⟨by rw [hx, ht], hrr⟩

theorem elemL_inj (e1 e2 : JElem) (r1 r2 : List Char)
    (hr1 : r1.headD ' ' = ',' ∨ r1.headD ' ' = '\n')
    (hr2 : r2.headD ' ' = ',' ∨ r2.headD ' ' = '\n')
    (h : elemL e1 ++ r1 = elemL e2 ++ r2) : e1 = e2 ∧ r1 = r2 := by
  cases e1 with
  | js x1 =>
      cases e2 with
      | js x2 =>
          unfold elemL at h
          rcases jsonStrL_inj_append x1 x2 r1 r2 h with ⟨hx, hr⟩
          exact ⟨by rw [hx], hr⟩
      | jl xs2 =>
          cases xs2 with
          | nil => unfold elemL jsonStrL at h; injection h with h1; simp at h1
          | cons y2 t2 => unfold elemL jsonStrL at h; injection h with h1; simp at h1
  | jl xs1 =>
      cases e2 with
      | js x2 =>
          cases xs1 with
          | nil => unfold elemL jsonStrL at h; injection h with h1; simp at h1
          | cons y1 t1 => unfold elemL jsonStrL at h; injection h with h1; simp at h1
      | jl xs2 =>
          cases xs1 with
          | nil =>
              cases xs2 with
              | nil =>
                  unfold elemL at h
                  injection h with _ h2
                  injection h2 with _ h3
                  exact ⟨rfl, h3⟩
              | cons y2 t2 =>
                  unfold elemL at h
                  injection h with _ h2
                  injection h2 with h3
                  simp at h3
          | cons y1 t1 =>
              cases xs2 with
              | nil =>
                  unfold elemL at h
                  injection h with _ h2
                  injection h2 with h3
                  simp at h3
              | cons y2 t2 =>
                  have hsh1 : elemL (.jl (y1 :: t1)) ++ r1 =
                      '[' :: '\n' :: (innerL (y1 :: t1) ++
                        ('\n' :: (pad 4 ++ (']' :: r1)))) := by
                    unfold elemL innerL
                    simp [List.append_assoc]
                  have hsh2 : elemL (.jl (y2 :: t2)) ++ r2 =
                      '[' :: '\n' :: (innerL (y2 :: t2) ++
                        ('\n' :: (pad 4 ++ (']' :: r2)))) := by
                    unfold elemL innerL
                    simp [List.append_assoc]
                  rw [hsh1, hsh2] at h
                  injection h with _ h2
                  injection h2 with _ h3
                  rcases inner_inj (y1 :: t1) (y2 :: t2) _ _ (by simp) (by simp)
                    (by simp) (by simp) h3 with ⟨hxs, hrr⟩
                  injection hrr with _ hrr2
                  have hrr3 := List.append_inj_right hrr2 (rfl :
                    (pad 4).length = (pad 4).length)
                  injection hrr3 with _ hrr4
                  exact ⟨by rw [hxs], hrr4⟩

theorem top_inj : ∀ (es1 es2 : JVal) (r1 r2 : List Char),
    es1 ≠ [] → es2 ≠ [] →
    r1.headD ' ' = '\n' → r2.headD ' ' = '\n' →
    topL es1 ++ r1 = topL es2 ++ r2 → es1 = es2 ∧ r1 = r2 := by
  intro es1
  induction es1 with
  | nil => intro es2 r1 r2 hne1; exact absurd rfl hne1
  | cons e1 t1 ih =>
      intro es2 r1 r2 _ hne2 hr1 hr2 h
      cases es2 with
      | nil => exact absurd rfl hne2
      | cons e2 t2 =>
          cases t1 with
          | nil =>
              cases t2 with
              | nil =>
                  rw [topL_single, topL_single] at h
                  rw [List.append_assoc, List.append_assoc] at h
                  have h2 := List.append_inj_right h rfl
                  rcases elemL_inj e1 e2 r1 r2 (Or.inr hr1) (Or.inr hr2) h2 with
                    ⟨hx, hr⟩
                  exact ⟨by rw [hx], hr⟩
              | cons f2 t2b =>
                  rw [topL_single] at h
                  rw [List.append_assoc, topL_cons2] at h
                  have h2 := List.append_inj_right h rfl
                  rcases elemL_inj e1 e2 _ _ (Or.inr hr1) (Or.inl (by simp)) h2 with
                    ⟨_, hr⟩
                  rw [hr] at hr1
                  simp at hr1
          | cons f1 t1b =>
              cases t2 with
              | nil =>
                  rw [topL_cons2] at h
                  rw [topL_single, List.append_assoc] at h
                  have h2 := List.append_inj_right h rfl
                  rcases elemL_inj e1 e2 _ _ (Or.inl (by simp)) (Or.inr hr2) h2 with
                    ⟨_, hr⟩
                  rw [← hr] at hr2
                  simp at hr2
              | cons f2 t2b =>
                  rw [topL_cons2, topL_cons2] at h
                  have h2 := List.append_inj_right h rfl
                  rcases elemL_inj e1 e2 _ _ (Or.inl (by simp)) (Or.inl (by simp))
                    h2 with ⟨hx, hr⟩
                  injection hr with _ hr3
                  injection hr3 with _ hr4
                  rcases ih (f2 :: t2b) r1 r2 (by simp) (by simp) hr1 hr2 hr4 with
                    ⟨ht, hrr⟩
                  exact ⟨by rw [hx, ht], hrr⟩

theorem dumpsL_inj_append (v1 v2 : JVal) (r1 r2 : List Char)
    (hf1 : r1 = [] ∨ r1.headD ' ' = ',') (hf2 : r2 = [] ∨ r2.headD ' ' = ',')
    (h : dumpsL v1 ++ r1 = dumpsL v2 ++ r2) : v1 = v2 ∧ r1 = r2 := by
  cases v1 with
  | nil =>
      cases v2 with
      | nil =>
          unfold dumpsL at h
          injection h with _ h2
          injection h2 with _ h3
          exact ⟨rfl, h3⟩
      | cons e2 t2 =>
          unfold dumpsL at h
          injection h with _ h2
          injection h2 with h3
          simp at h3
  | cons e1 t1 =>
      cases v2 with
      | nil =>
          unfold dumpsL at h
          injection h with _ h2
          injection h2 with h3
          simp at h3
      | cons e2 t2 =>
          have hsh1 : dumpsL (e1 :: t1) ++ r1 =
              '[' :: '\n' :: (topL (e1 :: t1) ++ ('\n' :: ']' :: r1)) := by
            unfold dumpsL topL
            simp [List.append_assoc]
          have hsh2 : dumpsL (e2 :: t2) ++ r2 =
              '[' :: '\n' :: (topL (e2 :: t2) ++ ('\n' :: ']' :: r2)) := by
            unfold dumpsL topL
            simp [List.append_assoc]
          rw [hsh1, hsh2] at h
          injection h with _ h2
          injection h2 with _ h3
          rcases top_inj (e1 :: t1) (e2 :: t2) _ _ (by simp) (by simp)
            (by simp) (by simp) h3 with ⟨hes, hrr⟩
          injection hrr with _ hrr2
          injection hrr2 with _ hrr3
          exact ⟨hes, hrr3⟩

/-- Split a character list at its first newline. -/
def splitNL : List Char → List Char × List Char
  | [] => ([], [])
  | c :: r =>
      if c = '\n' then ([], c :: r)
      else ((splitNL r).1.cons c, (splitNL r).2)

theorem splitNL_no : ∀ (l : List Char), '\n' ∉ l → splitNL l = (l, []) := by
  intro l
  induction l with
  | nil => intro _; rfl
  | cons c r ih =>
      intro hmem
      have hc : ¬c = '\n' := fun hc => hmem (hc ▸ List.mem_cons_self c r)
      unfold splitNL
      rw [if_neg hc, ih (fun hm => hmem (List.mem_cons_of_mem c hm))]

theorem splitNL_stop : ∀ (a : List Char) (t : List Char), '\n' ∉ a →
    splitNL (a ++ '\n' :: t) = (a, '\n' :: t) := by
  intro a
  induction a with
  | nil =>
      intro t _
      show splitNL ('\n' :: t) = _
      simp [splitNL]
  | cons c r ih =>
      intro t hmem
      have hc : ¬c = '\n' := fun hc => hmem (hc ▸ List.mem_cons_self c r)
      show splitNL (c :: (r ++ '\n' :: t)) = _
      unfold splitNL
      rw [if_neg hc, ih t (fun hm => hmem (List.mem_cons_of_mem c hm))]

theorem entry_shape_cons (k : String) (e : JElem) (es : JVal) (r : List Char) :
    entryL (k, e :: es) ++ r =
      (k.toList ++ ['=', '[']) ++
        ('\n' :: (topL (e :: es) ++ ('\n' :: ']' :: r))) := by
  unfold entryL dumpsL topL
  simp [List.append_assoc]

theorem entry_shape_nil_sep (k : String) (t : List Char) :
    entryL (k, ([] : JVal)) ++ (',' :: '\n' :: t) =
      (k.toList ++ ['=', '[', ']', ',']) ++ ('\n' :: t) := by
  unfold entryL dumpsL
  simp [List.append_assoc]

theorem entry_shape_nil_nil (k : String) :
    entryL (k, ([] : JVal)) ++ ([] : List Char) = k.toList ++ ['=', '[', ']'] := by
  unfold entryL dumpsL
  simp

theorem no_nl_pre (k : String) (hk : '\n' ∉ k.toList) (tail : List Char)
    (htail : '\n' ∉ tail) : '\n' ∉ k.toList ++ tail := by
  intro hmem
  rcases List.mem_append.mp hmem with hm | hm
  · exact hk hm
  · exact htail hm

theorem entry_inj (k1 k2 : String) (v1 v2 : JVal) (r1 r2 : List Char)
    (hk1 : '\n' ∉ k1.toList) (hk2 : '\n' ∉ k2.toList)
    (hf1 : r1 = [] ∨ ∃ t, r1 = ',' :: '\n' :: t)
    (hf2 : r2 = [] ∨ ∃ t, r2 = ',' :: '\n' :: t)
    (h : entryL (k1, v1) ++ r1 = entryL (k2, v2) ++ r2) :
    k1 = k2 ∧ v1 = v2 ∧ r1 = r2 := by
  cases v1 with
  | cons e1 es1 =>
      cases v2 with
      | cons e2 es2 =>
          rw [entry_shape_cons, entry_shape_cons] at h
          have hs := congrArg splitNL h
          rw [splitNL_stop _ _ (no_nl_pre k1 hk1 _ (by decide)),
            splitNL_stop _ _ (no_nl_pre k2 hk2 _ (by decide))] at hs
          have hfst := congrArg Prod.fst hs
          have hsnd := congrArg Prod.snd hs
          dsimp only at hfst hsnd
          rcases List.append_inj' hfst rfl with ⟨hks, _⟩
          injection hsnd with _ hsnd2
          rcases top_inj (e1 :: es1) (e2 :: es2) _ _ (by simp) (by simp)
            (by simp) (by simp) hsnd2 with ⟨hes, hrr⟩
          injection hrr with _ hrr2
          injection hrr2 with _ hrr3
          refine ⟨?_, hes, hrr3⟩
          cases k1; cases k2
          exact congrArg String.mk hks
      | nil =>
          rcases hf2 with rfl | ⟨t2, rfl⟩
          · rw [entry_shape_cons, entry_shape_nil_nil] at h
            have hs := congrArg splitNL h
            rw [splitNL_stop _ _ (no_nl_pre k1 hk1 _ (by decide)),
              splitNL_no _ (no_nl_pre k2 hk2 _ (by decide))] at hs
            have hsnd := congrArg Prod.snd hs
            simp at hsnd
          · rw [entry_shape_cons, entry_shape_nil_sep] at h
            have hs := congrArg splitNL h
            rw [splitNL_stop _ _ (no_nl_pre k1 hk1 _ (by decide)),
              splitNL_stop _ _ (no_nl_pre k2 hk2 _ (by decide))] at hs
            have hfst := congrArg Prod.fst hs
            dsimp only at hfst
            have hrev := congrArg List.reverse hfst
            simp only [List.reverse_append] at hrev
            simp at hrev
  | nil =>
      cases v2 with
      | cons e2 es2 =>
          rcases hf1 with rfl | ⟨t1, rfl⟩
          · rw [entry_shape_nil_nil, entry_shape_cons] at h
            have hs := congrArg splitNL h
            rw [splitNL_no _ (no_nl_pre k1 hk1 _ (by decide)),
              splitNL_stop _ _ (no_nl_pre k2 hk2 _ (by decide))] at hs
            have hsnd := congrArg Prod.snd hs
            simp at hsnd
          · rw [entry_shape_nil_sep, entry_shape_cons] at h
            have hs := congrArg splitNL h
            rw [splitNL_stop _ _ (no_nl_pre k1 hk1 _ (by decide)),
              splitNL_stop _ _ (no_nl_pre k2 hk2 _ (by decide))] at hs
            have hfst := congrArg Prod.fst hs
            dsimp only at hfst
            have hrev := congrArg List.reverse hfst
            simp only [List.reverse_append] at hrev
            simp at hrev
      | nil =>
          rcases hf1 with rfl | ⟨t1, rfl⟩
          · rcases hf2 with rfl | ⟨t2, rfl⟩
            · rw [entry_shape_nil_nil, entry_shape_nil_nil] at h
              rcases List.append_inj' h rfl with ⟨hks, _⟩
              refine ⟨?_, rfl, rfl⟩
              cases k1; cases k2
              exact congrArg String.mk hks
            · rw [entry_shape_nil_nil, entry_shape_nil_sep] at h
              have hs := congrArg splitNL h
              rw [splitNL_no _ (no_nl_pre k1 hk1 _ (by decide)),
                splitNL_stop _ _ (no_nl_pre k2 hk2 _ (by decide))] at hs
              have hsnd := congrArg Prod.snd hs
              simp at hsnd
          · rcases hf2 with rfl | ⟨t2, rfl⟩
            · rw [entry_shape_nil_sep, entry_shape_nil_nil] at h
              have hs := congrArg splitNL h
              rw [splitNL_stop _ _ (no_nl_pre k1 hk1 _ (by decide)),
                splitNL_no _ (no_nl_pre k2 hk2 _ (by decide))] at hs
              have hsnd := congrArg Prod.snd hs
              simp at hsnd
            · rw [entry_shape_nil_sep, entry_shape_nil_sep] at h
              have hs := congrArg splitNL h
              rw [splitNL_stop _ _ (no_nl_pre k1 hk1 _ (by decide)),
                splitNL_stop _ _ (no_nl_pre k2 hk2 _ (by decide))] at hs
              have hfst := congrArg Prod.fst hs
              have hsnd := congrArg Prod.snd hs
              dsimp only at hfst hsnd
              rcases List.append_inj' hfst rfl with ⟨hks, _⟩
              injection hsnd with _ ht
              refine ⟨?_, rfl, by rw [ht]⟩
              cases k1; cases k2
              exact congrArg String.mk hks

/-- The character list underlying `generate_avro_args`. -/
def gaaL (d : ArgDict) : List Char := List.intercalate [',', '\n'] (d.map entryL)

theorem gaaL_single (p : String × JVal) : gaaL [p] = entryL p := by
  simp [gaaL, List.intercalate]

theorem gaaL_cons2 (p q : String × JVal) (t : ArgDict) :
    gaaL (p :: q :: t) = entryL p ++ (',' :: '\n' :: gaaL (q :: t)) := by
  unfold gaaL
  rw [List.map_cons, List.map_cons, intercalate_cons2]
  simp [List.append_assoc]

theorem entryL_ne_nil (p : String × JVal) : entryL p ≠ [] := by
  unfold entryL
  simp

theorem gaa_inj : ∀ (d1 d2 : ArgDict),
    (∀ q ∈ d1, '\n' ∉ q.1.toList) → (∀ q ∈ d2, '\n' ∉ q.1.toList) →
    gaaL d1 = gaaL d2 → d1 = d2 := by
  intro d1
  induction d1 with
  | nil =>
      intro d2 _ _ h
      cases d2 with
      | nil => rfl
      | cons p2 t2 =>
          exfalso
          cases t2 with
          | nil =>
              rw [gaaL_single] at h
              exact entryL_ne_nil p2 h.symm
          | cons q2 t2b =>
              rw [gaaL_cons2] at h
              rcases List.append_eq_nil.mp h.symm with ⟨h1, _⟩
              exact entryL_ne_nil p2 h1
  | cons p1 t1 ih =>
      intro d2 hk1 hk2 h
      cases d2 with
      | nil =>
          exfalso
          cases t1 with
          | nil =>
              rw [gaaL_single] at h
              exact entryL_ne_nil p1 h
          | cons q1 t1b =>
              rw [gaaL_cons2] at h
              rcases List.append_eq_nil.mp h with ⟨h1, _⟩
              exact entryL_ne_nil p1 h1
      | cons p2 t2 =>
          have hknl1 : '\n' ∉ p1.1.toList := hk1 p1 (List.mem_cons_self p1 t1)
          have hknl2 : '\n' ∉ p2.1.toList := hk2 p2 (List.mem_cons_self p2 t2)
          cases t1 with
          | nil =>
              cases t2 with
              | nil =>
                  rw [gaaL_single, gaaL_single] at h
                  have h2 : entryL (p1.1, p1.2) ++ ([] : List Char) =
                      entryL (p2.1, p2.2) ++ ([] : List Char) := by
                    simpa using h
                  rcases entry_inj p1.1 p2.1 p1.2 p2.2 [] [] hknl1 hknl2
                    (Or.inl rfl) (Or.inl rfl) h2 with ⟨hkk, hvv, _⟩
                  have : p1 = p2 := Prod.ext hkk hvv
                  rw [this]
              | cons q2 t2b =>
                  exfalso
                  rw [gaaL_single, gaaL_cons2] at h
                  have h2 : entryL (p1.1, p1.2) ++ ([] : List Char) =
                      entryL (p2.1, p2.2) ++ (',' :: '\n' :: gaaL (q2 :: t2b)) := by
                    simpa using h
                  rcases entry_inj p1.1 p2.1 p1.2 p2.2 [] _ hknl1 hknl2
                    (Or.inl rfl) (Or.inr ⟨_, rfl⟩) h2 with ⟨_, _, hbad⟩
                  exact List.noConfusion hbad
          | cons q1 t1b =>
              cases t2 with
              | nil =>
                  exfalso
                  rw [gaaL_cons2, gaaL_single] at h
                  have h2 : entryL (p1.1, p1.2) ++ (',' :: '\n' :: gaaL (q1 :: t1b)) =
                      entryL (p2.1, p2.2) ++ ([] : List Char) := by
                    simpa using h
                  rcases entry_inj p1.1 p2.1 p1.2 p2.2 _ [] hknl1 hknl2
                    (Or.inr ⟨_, rfl⟩) (Or.inl rfl) h2 with ⟨_, _, hbad⟩
                  exact List.noConfusion hbad
              | cons q2 t2b =>
                  rw [gaaL_cons2, gaaL_cons2] at h
                  have h2 : entryL (p1.1, p1.2) ++ (',' :: '\n' :: gaaL (q1 :: t1b)) =
                      entryL (p2.1, p2.2) ++ (',' :: '\n' :: gaaL (q2 :: t2b)) := by
                    simpa using h
                  rcases entry_inj p1.1 p2.1 p1.2 p2.2 _ _ hknl1 hknl2
                    (Or.inr ⟨_, rfl⟩) (Or.inr ⟨_, rfl⟩) h2 with ⟨hkk, hvv, hrest⟩
                  injection hrest with _ hrest2
                  injection hrest2 with _ hrest3
                  have ht := ih (q2 :: t2b)
                    (fun q hq => hk1 q (List.mem_cons_of_mem p1 hq))
                    (fun q hq => hk2 q (List.mem_cons_of_mem p2 hq)) hrest3
                  have hp : p1 = p2 := Prod.ext hkk hvv
                  rw [hp, ht]

/-- C7, counterexample: two structurally different dictionaries with the same
serialization.  The second dictionary has a single key that contains newline
characters and spells out the first serialized entry and the separator. -/
theorem c7_cex :
    generate_avro_args [("a", [JElem.js "x"]), ("b", [JElem.js "y"])] =
      generate_avro_args [("a=[\n    \"x\"\n],\nb", [JElem.js "y"])] ∧
    [("a", [JElem.js "x"]), ("b", [JElem.js "y"])] ≠
      [("a=[\n    \"x\"\n],\nb", [JElem.js "y"])] :=
  ⟨by decide, by decide⟩

/-- C7 (amended): serialization is injective on argument dictionaries whose keys
contain no newline character (every key the classifier can produce is a path
segment of a stripped line and so contains none): two structurally different such
dictionaries never serialize to the same string. -/
theorem c7_thm (d1 d2 : ArgDict)
    (h1 : ∀ q ∈ d1, '\n' ∉ q.1.toList) (h2 : ∀ q ∈ d2, '\n' ∉ q.1.toList)
    (h : generate_avro_args d1 = generate_avro_args d2) : d1 = d2 := by
  apply gaa_inj d1 d2 h1 h2
  exact congrArg String.data h

/-- C7, witness for the amended theorem at concrete dictionaries. -/
theorem c7_wit :
    [("vets", [JElem.jl ["p/vets/vet_001/a.avro"]]), ("x", [JElem.js "p/x/b.avro"])] =
      ([("vets", [JElem.jl ["p/vets/vet_001/a.avro"]]),
        ("x", [JElem.js "p/x/b.avro"])] : ArgDict) :=
  c7_thm
    [("vets", [JElem.jl ["p/vets/vet_001/a.avro"]]), ("x", [JElem.js "p/x/b.avro"])]
    [("vets", [JElem.jl ["p/vets/vet_001/a.avro"]]), ("x", [JElem.js "p/x/b.avro"])]
    (by decide) (by decide) rfl

end GvsImport

